import Mathlib

/-!
Verification of `csim.c`, a set-associative cache simulator with LRU replacement.

The first part embeds the address decoder (`addr_to_setNum`, `addr_to_tag`), the cache
constructor and the loop of `simulate`. C `int` values that can wrap are reduced modulo
`2 ^ 32` explicitly; the hit, miss and eviction counters and the recency ranks never leave
the `int` range on traces shorter than `2 ^ 31` sub-accesses and are plain integers. The
row count `(int) round(pow(2, s))` is `2 ^ s` up to `s = 30`; beyond that the conversion is
out of range and `cache_new` cannot allocate, so a run stops before the first record. The
second part proves the properties of the simulator.
-/

namespace CacheSim

/-- How a run can stop without a result: the explicit `exit(1)` of the decoder, a step
whose behaviour C leaves undefined (use of the never-assigned `tmp`, out-of-range slot), or
the failed `assert` after an allocation that `malloc` cannot serve. -/
inductive Abort where
  | fatalExit
  | undefinedBehaviour
  | allocationFailure
  deriving DecidableEq

/-- Result of running a piece of the program. -/
inductive Outcome (α : Type) where
  | ok (val : α)
  | stop (why : Abort)
  deriving DecidableEq

/-- Conversion `(int) x` of a wider integer: two's-complement wrap to 32 bits. -/
def castInt32 (x : Int) : Int := (x + 2 ^ 31) % 2 ^ 32 - 2 ^ 31

/-- Bit pattern of a `long long` as a natural number below `2 ^ 64`. -/
def toU64 (x : Int) : Nat := (x % 2 ^ 64).toNat

/-- Bit pattern of an `int` (given as a 32-bit pattern) after promotion to `long long`. -/
def sext32 (m : Nat) : Nat := if m < 2 ^ 31 then m else m + (2 ^ 64 - 2 ^ 32)

/-- First loop of `addr_to_setNum`: `while (count > 0) { mask = mask << 1; count--; }`
on the 32-bit pattern of `mask`. -/
def shiftMaskLoop : Nat → Nat → Nat
  | 0, mask => mask
  | count + 1, mask => shiftMaskLoop count (mask * 2 % 2 ^ 32)

/-- Second loop of `addr_to_setNum`: `while (count > 1) { mask = mask | (mask << 1); count--; }`. -/
def widenMaskLoop : Nat → Nat → Nat
  | 0, mask => mask
  | 1, mask => mask
  | count + 2, mask => widenMaskLoop (count + 1) (mask ||| (mask * 2 % 2 ^ 32))

/-- Third loop of `addr_to_setNum`: `while (count > 0) { res = res >> 1; count--; }`
on the `unsigned int` `res`. -/
def shiftResLoop : Nat → Nat → Nat
  | 0, res => res
  | count + 1, res => shiftResLoop count (res / 2)

/-- Bit pattern of an `int` after conversion to `unsigned int`. -/
def toU32 (x : Int) : Nat := (x % 2 ^ 32).toNat

/-- Value of `(int) round(pow(2, s))`. For `s ≤ 30` it is `2 ^ s`. For `s ≥ 31` the power
is not representable as an `int`; the conversion then yields `INT_MIN` on x86-64 (the C
standard leaves it undefined), and that is the value kept here. -/
def numRows (s : Nat) : Int := if s ≤ 30 then 2 ^ s else -(2 ^ 31)

/-- Embedding of `addr_to_setNum`. The `int` `mask` is held as its 32-bit pattern, a left
shift keeps the low 32 bits; `addr & mask` is taken on the 64-bit patterns after promoting
`mask`; `unsigned int res` keeps the low 32 bits; the result `(int) res` is returned
unless `res >= rows` (an unsigned comparison, `rows` converted to `unsigned int`), where
the function prints its message and calls `exit(1)`. -/
def addr_to_setNum (addr : Int) (s b : Nat) : Outcome Int :=
  let mask := shiftMaskLoop b 1
  let mask := widenMaskLoop s mask
  let res : Nat := (toU64 addr &&& sext32 mask) % 2 ^ 32
  let res := shiftResLoop b res
  let mask := castInt32 res
  let rows := numRows s
  if res ≥ toU32 rows then Outcome.stop Abort.fatalExit else Outcome.ok mask

/-- Loop of `addr_to_tag`: `while (count > 0) { tmp = tmp >> 1; count--; }` on the
`long long` `tmp` (arithmetic shift). -/
def shiftTagLoop : Nat → Int → Int
  | 0, tmp => tmp
  | count + 1, tmp => shiftTagLoop count (tmp / 2)

/-- Embedding of `addr_to_tag`: `s + b` one-bit shifts of the `long long`, then the
narrowing `(int) tmp`. -/
def addr_to_tag (addr : Int) (s b : Nat) : Int :=
  castInt32 (shiftTagLoop (s + b) addr)

/-- Parsed trace line (`lineInfo_t`): operation character and address. -/
structure lineInfo where
  operation : Char
  address : Int
  deriving DecidableEq

/-- Counters returned by `simulate` (`cacheSimData_t`). -/
structure cacheSimData where
  hits : Int
  misses : Int
  evictions : Int
  deriving DecidableEq

/-- Constructor `cacheSimData_new`. -/
def cacheSimData_new (hitNum missNum evictionNum : Int) : cacheSimData :=
  { hits := hitNum, misses := missNum, evictions := evictionNum }

/-- The cache (`cache_t`): tags and valid flags, one row of `E` entries per set. -/
structure cache_t where
  cache : List (List Int)
  valid : List (List Int)
  s : Nat
  deriving DecidableEq

/-- Embedding of `cache_new`: `rows` rows of `E` entries, every tag `-1`, every valid flag
`0`. With a negative `rows` (`s ≥ 31`) the request `malloc(rows * sizeof(int*))` is for more
than `2 ^ 63` bytes, `malloc` returns `NULL` and `assert(cacheField != NULL)` aborts. -/
def cache_new (s E _b : Nat) : Outcome cache_t :=
  let rows := numRows s
  if rows < 0 then Outcome.stop Abort.allocationFailure
  else Outcome.ok
    { cache := List.replicate rows.toNat (List.replicate E (-1)),
      valid := List.replicate rows.toNat (List.replicate E 0),
      s := s }

/-- Embedding of `is_set_full`: no entry of the set's valid row is `0`. The row has `E`
entries, so the loop `j < cols` is the traversal of the row. -/
def is_set_full (simCache : cache_t) (setNum : Nat) (_E : Nat) : Bool :=
  (simCache.valid.getD setNum []).all (fun v => decide (v ≠ 0))

/-- Variables of `simulate` that live across sub-accesses. `tmp` is `none` until its
first assignment. -/
structure SimState where
  simCache : cache_t
  lruMatrix : List (List Int)
  hitCount : Int
  missCount : Int
  evCount : Int
  tmp : Option Int
  deriving DecidableEq

/-- Initial row of `lruMatrix`: `lruMatrix[i][j] = j + 1`. -/
def lruInitRow (E : Nat) : List Int := (List.range E).map (fun (j : Nat) => (j : Int) + 1)

/-- State of `simulate` on entry to the `while` loop: the cache of `cache_new`, the
recency matrix `lruMatrix[rows][E]` filled with `j + 1`, the counters at 0 and `tmp`
unassigned. -/
def initState (s E b : Nat) : Outcome SimState :=
  match cache_new s E b with
  | Outcome.stop why => Outcome.stop why
  | Outcome.ok simCache =>
    Outcome.ok
      { simCache := simCache,
        lruMatrix := List.replicate (numRows s).toNat (lruInitRow E),
        hitCount := 0, missCount := 0, evCount := 0, tmp := none }

/-- Scan `for (i=0; i<E; i++) if (workingSet[i] == tag && valid[setNum][i] == 1) break`:
the first matching slot, counted from `i`, or `none` when `inSet` stays `0`. -/
def findTag (tag : Int) : List Int → List Int → Nat → Option Nat
  | w :: ws, v :: vs, i => if w = tag ∧ v = 1 then some i else findTag tag ws vs (i + 1)
  | _, _, _ => none

/-- Ageing loop of the hit branch: `if (lruMatrix[setNum][j] < tmp) lruMatrix[setNum][j]++`. -/
def hitLoop (tmp : Int) (lruRow : List Int) : List Int :=
  lruRow.map (fun x => if x < tmp then x + 1 else x)

/-- Ageing loop of both miss branches, from slot `i` on: an entry equal to `E` becomes `1`
and its index is saved in `tmp`, every other entry is incremented. -/
def missLoop (E : Int) : List Int → Nat → Option Int → List Int × Option Int
  | [], _, tmp => ([], tmp)
  | x :: xs, i, tmp =>
    if x = E then
      let r := missLoop E xs (i + 1) (some (i : Int))
      (1 :: r.1, r.2)
    else
      let r := missLoop E xs (i + 1) tmp
      ((x + 1) :: r.1, r.2)

/-- One pass through the body after the label `twice` (one sub-access): the scan, then the
hit branch, the full-set miss branch or the free-slot miss branch. The write through `tmp`
is undefined when `tmp` was never assigned or is not a slot of the row. -/
def access (E : Nat) (setNum : Nat) (tag : Int) (st : SimState) : Outcome SimState :=
  let workingSet := st.simCache.cache.getD setNum []
  let lruRow := st.lruMatrix.getD setNum []
  match findTag tag workingSet (st.simCache.valid.getD setNum []) 0 with
  | some i =>
    let tmp := lruRow.getD i 0
    Outcome.ok { st with
      lruMatrix := st.lruMatrix.set setNum ((hitLoop tmp lruRow).set i 1),
      hitCount := st.hitCount + 1,
      tmp := some tmp }
  | none =>
    if is_set_full st.simCache setNum E then
      let r := missLoop E lruRow 0 st.tmp
      match r.2 with
      | none => Outcome.stop Abort.undefinedBehaviour
      | some t =>
        if 0 ≤ t ∧ t < E then
          Outcome.ok { st with
            simCache := { st.simCache with
              cache := st.simCache.cache.set setNum (workingSet.set t.toNat tag) },
            lruMatrix := st.lruMatrix.set setNum r.1,
            evCount := st.evCount + 1,
            missCount := st.missCount + 1,
            tmp := some t }
        else Outcome.stop Abort.undefinedBehaviour
    else
      let r := missLoop E lruRow 0 st.tmp
      match r.2 with
      | none => Outcome.stop Abort.undefinedBehaviour
      | some t =>
        if 0 ≤ t ∧ t < E then
          Outcome.ok { st with
            simCache := { st.simCache with
              cache := st.simCache.cache.set setNum (workingSet.set t.toNat tag),
              valid := st.simCache.valid.set setNum
                ((st.simCache.valid.getD setNum []).set t.toNat 1) },
            lruMatrix := st.lruMatrix.set setNum r.1,
            missCount := st.missCount + 1,
            tmp := some t }
        else Outcome.stop Abort.undefinedBehaviour

/-- Body of the `while` loop for one trace line: decode, one sub-access, and a second one
through `goto twice` when the operation is `M`. -/
def processLine (s E b : Nat) (st : SimState) (lineFoll : lineInfo) : Outcome SimState :=
  match addr_to_setNum lineFoll.address s b with
  | Outcome.stop why => Outcome.stop why
  | Outcome.ok setNum =>
    let tag := addr_to_tag lineFoll.address s b
    match access E setNum.toNat tag st with
    | Outcome.stop why => Outcome.stop why
    | Outcome.ok st1 =>
      if lineFoll.operation = 'M' then access E setNum.toNat tag st1 else Outcome.ok st1

/-- The `while (listPointFoll != NULL)` loop. -/
def runLines (s E b : Nat) : SimState → List lineInfo → Outcome SimState
  | st, [] => Outcome.ok st
  | st, lineFoll :: rest =>
    match processLine s E b st lineFoll with
    | Outcome.stop why => Outcome.stop why
    | Outcome.ok st1 => runLines s E b st1 rest

/-- State of `simulate` when the list is exhausted, before the counters are packed. -/
def simulateState (s E b : Nat) (strList : List lineInfo) : Outcome SimState :=
  match initState s E b with
  | Outcome.stop why => Outcome.stop why
  | Outcome.ok st => runLines s E b st strList

/-- Embedding of `simulate`. -/
def simulate (s E b : Nat) (strList : List lineInfo) : Outcome cacheSimData :=
  match simulateState s E b strList with
  | Outcome.stop why => Outcome.stop why
  | Outcome.ok st => Outcome.ok (cacheSimData_new st.hitCount st.missCount st.evCount)

/-- Sub-accesses of one record: a `Modify` record counts 2, a `Load` or `Store` record 1
(the loop gives one pass to every operation character other than `M`). -/
def subAccessCount (operation : Char) : Int := if operation = 'M' then 2 else 1

/-- Total number of sub-accesses of a record sequence. -/
def total_sub_accesses (strList : List lineInfo) : Int :=
  (strList.map (fun l => subAccessCount l.operation)).sum

/-- Decoded `(setNum, tag)` pairs in the order `simulate` presents them to the cache: one
pair per line, two for an `M` line. A line whose address takes the fatal exit contributes
nothing. -/
def subAccesses (s b : Nat) : List lineInfo → List (Nat × Int)
  | [] => []
  | lineFoll :: rest =>
    match addr_to_setNum lineFoll.address s b with
    | Outcome.stop _ => subAccesses s b rest
    | Outcome.ok setNum =>
      let a := (setNum.toNat, addr_to_tag lineFoll.address s b)
      if lineFoll.operation = 'M' then a :: a :: subAccesses s b rest
      else a :: subAccesses s b rest

/-- The sub-access loop run on already decoded pairs. -/
def runAccesses (E : Nat) : SimState → List (Nat × Int) → Outcome SimState
  | st, [] => Outcome.ok st
  | st, a :: rest =>
    match access E a.1 a.2 st with
    | Outcome.stop why => Outcome.stop why
    | Outcome.ok st1 => runAccesses E st1 rest

/-- Tag that a sub-access is about to overwrite on line 353 (`workingSet[tmp]` in the
full-set branch, read before the write); `none` for a hit and for a miss with a free slot. -/
def overwrittenTag (E : Nat) (setNum : Nat) (tag : Int) (st : SimState) : Option Int :=
  match findTag tag (st.simCache.cache.getD setNum []) (st.simCache.valid.getD setNum []) 0 with
  | some _ => none
  | none =>
    if is_set_full st.simCache setNum E then
      match (missLoop E (st.lruMatrix.getD setNum []) 0 st.tmp).2 with
      | some t => (st.simCache.cache.getD setNum [])[t.toNat]?
      | none => none
    else none

/-- Tags overwritten by the evictions of a run, in order. -/
def evictedTags (E : Nat) : SimState → List (Nat × Int) → List Int
  | _, [] => []
  | st, a :: rest =>
    match access E a.1 a.2 st with
    | Outcome.stop _ => []
    | Outcome.ok st1 => (overwrittenTag E a.1 a.2 st).toList ++ evictedTags E st1 rest

/-- Reference LRU model: per set a most-recent-first list of tags, and the three counters. -/
structure LruRef where
  sets : Nat → List Int
  hits : Int
  misses : Int
  evictions : Int

/-- Empty reference cache. -/
def lruRefInit : LruRef := { sets := fun _ => [], hits := 0, misses := 0, evictions := 0 }

/-- One access of the reference model: a listed tag is a hit and moves to the front;
otherwise a miss puts the tag at the front and, if the list already held `E` tags, removes
the last tag and counts an eviction. -/
def lruRefAccess (E : Nat) (r : LruRef) (a : Nat × Int) : LruRef :=
  if a.2 ∈ r.sets a.1 then
    { r with sets := Function.update r.sets a.1 (a.2 :: (r.sets a.1).erase a.2),
             hits := r.hits + 1 }
  else if (r.sets a.1).length = E then
    { r with sets := Function.update r.sets a.1 ((a.2 :: r.sets a.1).dropLast),
             misses := r.misses + 1, evictions := r.evictions + 1 }
  else
    { r with sets := Function.update r.sets a.1 (a.2 :: r.sets a.1),
             misses := r.misses + 1 }

/-- Reference model run over a sequence of `(setIndex, tag)` pairs. -/
def lruRefRun (E : Nat) (r : LruRef) (accs : List (Nat × Int)) : LruRef :=
  accs.foldl (lruRefAccess E) r

/-- Counters of the reference model started empty. -/
def lruReference (E : Nat) (accs : List (Nat × Int)) : cacheSimData :=
  cacheSimData_new (lruRefRun E lruRefInit accs).hits (lruRefRun E lruRefInit accs).misses
    (lruRefRun E lruRefInit accs).evictions

/-- Tag removed by a reference access: the last (least recently referenced) tag of a list
of `E` tags when the accessed tag is not listed. -/
def lruRefVictim (E : Nat) (l : List Int) (tag : Int) : Option Int :=
  if tag ∈ l then none else if l.length = E then l.getLast? else none

/-- Tags removed by the evictions of a reference run, in order. -/
def lruRefVictims (E : Nat) : LruRef → List (Nat × Int) → List Int
  | _, [] => []
  | r, a :: rest =>
    (lruRefVictim E (r.sets a.1) a.2).toList ++ lruRefVictims E (lruRefAccess E r a) rest

/-- A state the loop of `simulate` can be in after some sequence of trace lines. -/
def Reachable (s E b : Nat) (st : SimState) : Prop :=
  ∃ strList : List lineInfo, simulateState s E b strList = Outcome.ok st

/-- A set's three rows `w` (tags), `v` (valid flags), `l` (recency ranks) represent the
most-recent-first tag list `L`. -/
structure RowRel (E : Nat) (w v l L : List Int) : Prop where
  wlen : w.length = E
  vlen : v.length = E
  llen : l.length = E
  Llen : L.length ≤ E
  Lnodup : L.Nodup
  lnodup : l.Nodup
  lrange : ∀ x ∈ l, 1 ≤ x ∧ x ≤ (E : Int)
  vbool : ∀ x ∈ v, x = 0 ∨ x = 1
  vcount : v.count 1 = L.length
  occ : ∀ j (hv : j < v.length) (hl : j < l.length), v[j] = 1 ↔ l[j] ≤ (L.length : Int)
  tagAt : ∀ j (hw : j < w.length) (hv : j < v.length) (hl : j < l.length),
    v[j] = 1 → L[(l[j] - 1).toNat]? = some w[j]

/-- The whole state represents the reference state: same shape, every set related, equal
counters. -/
structure StateRel (s E : Nat) (st : SimState) (r : LruRef) : Prop where
  clen : st.simCache.cache.length = 2 ^ s
  vlen : st.simCache.valid.length = 2 ^ s
  llen : st.lruMatrix.length = 2 ^ s
  rows : ∀ n, n < 2 ^ s →
    RowRel E (st.simCache.cache.getD n []) (st.simCache.valid.getD n [])
      (st.lruMatrix.getD n []) (r.sets n)
  hits : st.hitCount = r.hits
  misses : st.missCount = r.misses
  evictions : st.evCount = r.evictions

/-- Pointwise form of the recency row written by the miss loop. -/
def missRow (E : Int) (l : List Int) : List Int := l.map (fun x => if x = E then 1 else x + 1)

/-- Tags of the sub-accesses that decode to set `n`, in order. -/
def tagsOf (accs : List (Nat × Int)) (n : Nat) : List Int :=
  (accs.filter (fun a => decide (a.1 = n))).map (fun a => a.2)

/-- Number of distinct tags ever accessed in set `n` by a record sequence. -/
def distinctTags (s b : Nat) (strList : List lineInfo) (n : Nat) : Nat :=
  (tagsOf (subAccesses s b strList) n).toFinset.card

/-- Replace every `M` record by a load and a store of the same address. -/
def expandModify : List lineInfo → List lineInfo
  | [] => []
  | lineFoll :: rest =>
    if lineFoll.operation = 'M' then
      { operation := 'L', address := lineFoll.address } ::
        { operation := 'S', address := lineFoll.address } :: expandModify rest
    else lineFoll :: expandModify rest

/-- Entry `simCache->valid[n][j]`. -/
def validAt (st : SimState) (n j : Nat) : Int := (st.simCache.valid.getD n []).getD j 0

/-- Entry `simCache->cache[n][j]`. -/
def cacheAt (st : SimState) (n j : Nat) : Int := (st.simCache.cache.getD n []).getD j (-1)

/-- Entry `lruMatrix[n][j]`. -/
def lruAt (st : SimState) (n j : Nat) : Int := (st.lruMatrix.getD n []).getD j 0

/-- Number of occupied lines (`valid == 1`) of set `n`. -/
def occupiedCount (st : SimState) (n : Nat) : Nat := (st.simCache.valid.getD n []).count 1

/-- One access of the reference model on the tag list of a single set. -/
def lruSetAccess (E : Nat) (l : List Int) (tag : Int) : List Int :=
  if tag ∈ l then tag :: l.erase tag
  else if l.length = E then (tag :: l).dropLast
  else tag :: l

/-- Example state: `s = 1`, `E = 1`, `b = 0` after the line `L 0`. -/
def exampleDirect : SimState :=
  SimState.mk (cache_t.mk [[0], [-1]] [[1], [0]] 1) [[1], [1]] 0 1 0 (some 0)

/-- Example state: `s = 1`, `E = 2`, `b = 0` after the lines `L 0`, `L 2` (set 0 full). -/
def exampleFull : SimState :=
  SimState.mk (cache_t.mk [[1, 0], [-1, -1]] [[1, 1], [0, 0]] 1) [[1, 2], [1, 2]] 0 2 0 (some 0)

/-- Example state: `s = 1`, `E = 2`, `b = 0` after the line `L 0` (set 0 half full). -/
def exampleHalf : SimState :=
  SimState.mk (cache_t.mk [[-1, 0], [-1, -1]] [[0, 1], [0, 0]] 1) [[2, 1], [1, 2]] 0 1 0 (some 1)

/-- Example state: `s = 1`, `E = 2`, `b = 0` after the lines `L 0`, `L 1` (one line in each
set). -/
def exampleBoth : SimState :=
  SimState.mk (cache_t.mk [[-1, 0], [-1, 0]] [[0, 1], [0, 1]] 1) [[2, 1], [2, 1]] 0 2 0 (some 1)

/-- The state `initState` returns when the rows can be allocated: `2 ^ s` empty sets. -/
def emptyState (s E : Nat) : SimState :=
  { simCache :=
      { cache := List.replicate (2 ^ s) (List.replicate E (-1)),
        valid := List.replicate (2 ^ s) (List.replicate E 0),
        s := s },
    lruMatrix := List.replicate (2 ^ s) (lruInitRow E),
    hitCount := 0, missCount := 0, evCount := 0, tmp := none }

/-! Decoder lemmas -/

theorem shiftMaskLoop_eq (n : Nat) : ∀ m : Nat, m < 2 ^ 32 →
    shiftMaskLoop n m = m * 2 ^ n % 2 ^ 32 := by
  induction n with
  | zero => intro m hm; simp only [shiftMaskLoop, pow_zero, Nat.mul_one]; omega
  | succ n ih =>
    intro m _
    rw [shiftMaskLoop, ih _ (Nat.mod_lt _ (by norm_num)), Nat.mod_mul_mod, pow_succ']
    ring_nf

theorem shiftResLoop_eq (n : Nat) : ∀ r : Nat, shiftResLoop n r = r / 2 ^ n := by
  induction n with
  | zero => intro r; simp [shiftResLoop]
  | succ n ih =>
    intro r
    rw [shiftResLoop, ih, Nat.div_div_eq_div_mul, pow_succ']

theorem int_ediv_ediv (t a b : Int) (ha : 0 < a) (hb : 0 < b) : t / a / b = t / (a * b) := by
  have hab : 0 < a * b := Int.mul_pos ha hb
  have h1 := Int.emod_add_ediv t a
  have h2 := Int.emod_add_ediv (t / a) b
  have h3 := Int.emod_nonneg t (ne_of_gt ha)
  have h4 := Int.emod_lt_of_pos t ha
  have h5 := Int.emod_nonneg (t / a) (ne_of_gt hb)
  have h6 := Int.emod_lt_of_pos (t / a) hb
  have key := (Int.ediv_emod_unique (a := t) (b := a * b) (r := t % a + a * ((t / a) % b))
    (q := t / a / b) hab).2 ⟨by
      calc t % a + a * (t / a % b) + a * b * (t / a / b)
          = t % a + a * (t / a % b + b * (t / a / b)) := by ring
        _ = t := by rw [h2, h1], by positivity, by nlinarith⟩
  exact key.1.symm

theorem shiftTagLoop_eq (n : Nat) : ∀ t : Int, shiftTagLoop n t = t / 2 ^ n := by
  induction n with
  | zero => intro t; simp [shiftTagLoop]
  | succ n ih =>
    intro t
    rw [shiftTagLoop, ih, int_ediv_ediv _ _ _ (by norm_num) (by positivity), pow_succ']

theorem testBit_block (k b j : Nat) :
    ((2 ^ k - 1) * 2 ^ b).testBit j = (decide (b ≤ j) && decide (j < b + k)) := by
  rw [Nat.mul_comm, Nat.testBit_mul_pow_two, Nat.testBit_two_pow_sub_one]
  rcases Nat.lt_or_ge j b with h | h
  · simp [h, Nat.not_le.mpr h]
  · have : (j - b < k) ↔ (j < b + k) := by omega
    simp [h, this]

theorem block_lt (k b n : Nat) (h : k + b ≤ n) : (2 ^ k - 1) * 2 ^ b < 2 ^ n := by
  have h1 : 2 ^ k * 2 ^ b ≤ 2 ^ n := by
    rw [← pow_add]; exact Nat.pow_le_pow_right (by norm_num) h
  have h2 : 0 < 2 ^ b := Nat.two_pow_pos _
  have h3 : 0 < 2 ^ k := Nat.two_pow_pos _
  have : (2 ^ k - 1) * 2 ^ b < 2 ^ k * 2 ^ b :=
    Nat.mul_lt_mul_of_pos_right (by omega) h2
  omega

theorem block_or_shift (k b : Nat) (hk : 1 ≤ k) :
    ((2 ^ k - 1) * 2 ^ b) ||| ((2 ^ k - 1) * 2 ^ b * 2) = (2 ^ (k + 1) - 1) * 2 ^ b := by
  apply Nat.eq_of_testBit_eq
  intro j
  have e : (2 ^ k - 1) * 2 ^ b * 2 = (2 ^ k - 1) * 2 ^ (b + 1) := by rw [pow_succ]; ring
  rw [Nat.testBit_or, e, testBit_block, testBit_block, testBit_block, Bool.eq_iff_iff]
  simp only [Bool.or_eq_true, Bool.and_eq_true, decide_eq_true_eq]
  omega

theorem widenMaskLoop_block (c : Nat) : ∀ k b : Nat, 1 ≤ k → k + c + b ≤ 31 →
    widenMaskLoop (c + 1) ((2 ^ k - 1) * 2 ^ b) = (2 ^ (k + c) - 1) * 2 ^ b := by
  induction c with
  | zero => intro k b _ _; simp [widenMaskLoop]
  | succ c ih =>
    intro k b hk hle
    have hlt : (2 ^ k - 1) * 2 ^ b * 2 < 2 ^ 32 := by
      have := block_lt k (b + 1) 32 (by omega)
      rw [pow_succ] at this
      rw [Nat.mul_assoc]; exact this
    rw [widenMaskLoop, Nat.mod_eq_of_lt hlt, block_or_shift k b hk, ih (k + 1) b (by omega) (by omega)]
    congr 3; omega

theorem and_block_div (X s b : Nat) :
    (X &&& ((2 ^ s - 1) * 2 ^ b)) / 2 ^ b = X / 2 ^ b % 2 ^ s := by
  apply Nat.eq_of_testBit_eq
  intro j
  rw [← Nat.shiftRight_eq_div_pow, ← Nat.shiftRight_eq_div_pow, Nat.testBit_shiftRight,
    Nat.testBit_and, testBit_block, Nat.testBit_mod_two_pow, Nat.testBit_shiftRight,
    Bool.eq_iff_iff]
  simp only [Bool.and_eq_true, decide_eq_true_eq]
  constructor
  · rintro ⟨h1, _, h3⟩; exact ⟨by omega, h1⟩
  · rintro ⟨h1, h2⟩; exact ⟨h2, by omega, by omega⟩

theorem toU64_div_mod (addr : Int) (s b : Nat) (h : s + b ≤ 64) :
    ((toU64 addr / 2 ^ b % 2 ^ s : Nat) : Int) = addr / 2 ^ b % 2 ^ s := by
  have hnn : (0 : Int) ≤ addr % 2 ^ 64 := Int.emod_nonneg _ (by norm_num)
  have e1 : ((toU64 addr : Nat) : Int) = addr % 2 ^ 64 := by
    unfold toU64; exact Int.toNat_of_nonneg hnn
  have e2 : addr = addr % 2 ^ 64 + (addr / 2 ^ 64 * 2 ^ (64 - b - s) * 2 ^ s) * 2 ^ b := by
    have hp : (2 : Int) ^ 64 = 2 ^ (64 - b - s) * 2 ^ s * 2 ^ b := by
      rw [← pow_add, ← pow_add]; congr 1; omega
    have := Int.emod_add_ediv addr (2 ^ 64)
    calc addr = addr % 2 ^ 64 + 2 ^ 64 * (addr / 2 ^ 64) := this.symm
      _ = addr % 2 ^ 64 + (addr / 2 ^ 64 * 2 ^ (64 - b - s) * 2 ^ s) * 2 ^ b := by
        rw [Int.mul_comm ((2:Int) ^ 64), Int.mul_assoc (addr / 2 ^ 64), Int.mul_assoc (addr / 2 ^ 64)]
        rw [← hp]
  push_cast
  rw [e1]
  conv_rhs => rw [e2]
  rw [Int.add_mul_ediv_right _ _ (by positivity), Int.add_mul_emod_self]

theorem numRows_of_le (s : Nat) (h : s ≤ 30) : numRows s = ((2 ^ s : Nat) : Int) := by
  unfold numRows
  rw [if_pos h]
  push_cast
  rfl

theorem numRows_toNat_of_le (s : Nat) (h : s ≤ 30) : (numRows s).toNat = 2 ^ s := by
  rw [numRows_of_le s h]
  exact Int.toNat_ofNat _

theorem toU32_numRows_of_le (s : Nat) (h : s ≤ 30) : toU32 (numRows s) = 2 ^ s := by
  have hlt : (2 : Nat) ^ s < 2 ^ 32 := Nat.pow_lt_pow_right (by norm_num) (by omega)
  rw [numRows_of_le s h]
  unfold toU32
  have hnn : (0 : Int) ≤ ((2 ^ s : Nat) : Int) := Int.ofNat_nonneg _
  have hlt2 : ((2 ^ s : Nat) : Int) < 2 ^ 32 := by exact_mod_cast hlt
  rw [Int.emod_eq_of_lt hnn hlt2]
  exact Int.toNat_ofNat _

theorem toU32_numRows_le (s : Nat) : toU32 (numRows s) ≤ 2 ^ s := by
  by_cases h : s ≤ 30
  · rw [toU32_numRows_of_le s h]
  · have e : toU32 (numRows s) = 2 ^ 31 := by
      unfold numRows toU32
      rw [if_neg h]
      decide
    rw [e]
    exact Nat.pow_le_pow_right (by norm_num) (by omega)

theorem lt_numRows (n s : Nat) (h : (n : Int) < numRows s) : s ≤ 30 ∧ n < 2 ^ s := by
  by_cases hs : s ≤ 30
  · refine ⟨hs, ?_⟩
    rw [numRows_of_le s hs] at h
    exact_mod_cast h
  · exfalso
    unfold numRows at h
    rw [if_neg hs] at h
    have : (0 : Int) ≤ (n : Int) := Int.ofNat_nonneg _
    omega

/-! List lemmas for rows and matrices -/

theorem getD_set_same {α : Type} (m : List α) (n : Nat) (x d : α) (h : n < m.length) :
    (m.set n x).getD n d = x := by
  rw [List.getD_eq_getElem?_getD, List.getElem?_set]
  simp [h]

theorem getD_set_other {α : Type} (m : List α) (n k : Nat) (x d : α) (h : k ≠ n) :
    (m.set n x).getD k d = m.getD k d := by
  rw [List.getD_eq_getElem?_getD, List.getD_eq_getElem?_getD, List.getElem?_set]
  rw [if_neg (fun e => h e.symm)]

theorem findTag_some (tag : Int) : ∀ (w v : List Int) (i p : Nat),
    findTag tag w v i = some p →
    i ≤ p ∧ ∃ (hw : p - i < w.length) (hv : p - i < v.length),
      w[p - i] = tag ∧ v[p - i] = 1 := by
  intro w
  induction w with
  | nil => intro v i p h; simp [findTag] at h
  | cons x xs ih =>
    intro v i p h
    cases v with
    | nil => simp [findTag] at h
    | cons y ys =>
      rw [findTag] at h
      split at h
      · rename_i hxy
        injection h with h
        subst h
        exact ⟨le_refl _, by simp, by simp, by simpa using hxy.1, by simpa using hxy.2⟩
      · obtain ⟨h1, hw, hv, h2, h3⟩ := ih ys (i + 1) p h
        have e : p - i = (p - (i + 1)) + 1 := by omega
        refine ⟨by omega, ?_, ?_, ?_, ?_⟩
        · simp only [List.length_cons]; omega
        · simp only [List.length_cons]; omega
        · simp only [e, List.getElem_cons_succ]; exact h2
        · simp only [e, List.getElem_cons_succ]; exact h3

theorem findTag_none (tag : Int) : ∀ (w v : List Int) (i : Nat),
    findTag tag w v i = none →
    ∀ j (hw : j < w.length) (hv : j < v.length), ¬ (w[j] = tag ∧ v[j] = 1) := by
  intro w
  induction w with
  | nil => intro v i _ j hw; simp at hw
  | cons x xs ih =>
    intro v i h j hw hv
    cases v with
    | nil => simp at hv
    | cons y ys =>
      rw [findTag] at h
      split at h
      · simp at h
      · rename_i hxy
        cases j with
        | zero => simpa using hxy
        | succ j =>
          simp only [List.getElem_cons_succ]
          exact ih ys (i + 1) h j (by simpa using hw) (by simpa using hv)

theorem missLoop_fst (E : Int) : ∀ (l : List Int) (i : Nat) (t : Option Int),
    (missLoop E l i t).1 = l.map (fun x => if x = E then 1 else x + 1) := by
  intro l
  induction l with
  | nil => intro i t; simp [missLoop]
  | cons x xs ih =>
    intro i t
    rw [missLoop]
    split
    · rename_i hx; simp [ih, hx]
    · rename_i hx; simp [ih, hx]

theorem missLoop_snd_absent (E : Int) : ∀ (l : List Int) (i : Nat) (t : Option Int),
    E ∉ l → (missLoop E l i t).2 = t := by
  intro l
  induction l with
  | nil => intro i t _; simp [missLoop]
  | cons x xs ih =>
    intro i t h
    rw [List.mem_cons, not_or] at h
    rw [missLoop, if_neg (fun e => h.1 e.symm)]
    exact ih (i + 1) t h.2

theorem missLoop_snd (E : Int) : ∀ (l : List Int) (i : Nat) (t : Option Int) (p : Nat)
    (hp : p < l.length), l.Nodup → l[p] = E →
    (missLoop E l i t).2 = some ((i + p : Nat) : Int) := by
  intro l
  induction l with
  | nil => intro i t p hp; simp at hp
  | cons x xs ih =>
    intro i t p hp hnd hE
    rw [List.nodup_cons] at hnd
    cases p with
    | zero =>
      simp only [List.getElem_cons_zero] at hE
      rw [missLoop, if_pos hE]
      simp only [Nat.add_zero]
      exact missLoop_snd_absent E xs (i + 1) _ (hE ▸ hnd.1)
    | succ p =>
      simp only [List.getElem_cons_succ] at hE
      have hx : x ≠ E := by
        intro e
        apply hnd.1
        rw [e, ← hE]
        exact List.getElem_mem _
      rw [missLoop, if_neg hx]
      have := ih (i + 1) t p (by simpa using hp) hnd.2 hE
      rw [this]
      congr 2
      omega

theorem rank_present (E : Nat) (l : List Int) (hlen : l.length = E) (hnd : l.Nodup)
    (hr : ∀ x ∈ l, 1 ≤ x ∧ x ≤ (E : Int)) (r : Int) (h1 : 1 ≤ r) (h2 : r ≤ E) : r ∈ l := by
  have hsub : l ⊆ lruInitRow E := by
    intro x hx
    obtain ⟨a, b⟩ := hr x hx
    unfold lruInitRow
    rw [List.mem_map]
    exact ⟨(x - 1).toNat, List.mem_range.mpr (by omega), by omega⟩
  have hperm : l.Perm (lruInitRow E) :=
    (List.subperm_of_subset hnd hsub).perm_of_length_le (by simp [lruInitRow, hlen])
  rw [hperm.mem_iff]
  unfold lruInitRow
  rw [List.mem_map]
  exact ⟨(r - 1).toNat, List.mem_range.mpr (by omega), by omega⟩

theorem erase_getElem_opt (a : Int) : ∀ (L : List Int) (p n : Nat), L.Nodup → L[p]? = some a →
    (L.erase a)[n]? = if n < p then L[n]? else L[n + 1]? := by
  intro L
  induction L with
  | nil => intro p n _ h; simp at h
  | cons x xs ih =>
    intro p n hnd hp
    rw [List.nodup_cons] at hnd
    by_cases hx : x = a
    · subst hx
      have hp0 : p = 0 := by
        cases p with
        | zero => rfl
        | succ q =>
          exfalso
          rw [List.getElem?_cons_succ] at hp
          exact hnd.1 (List.getElem?_mem hp)
      subst hp0
      simp
    · cases p with
      | zero => simp at hp; exact absurd hp hx
      | succ q =>
        rw [List.getElem?_cons_succ] at hp
        rw [List.erase_cons_tail (by simpa using hx)]
        cases n with
        | zero => simp
        | succ m =>
          rw [List.getElem?_cons_succ, ih q m hnd.2 hp]
          simp

/-! One sub-access on the rows of a set -/

theorem nodup_of_getElem_ne (l : List Int)
    (h : ∀ a b (ha : a < l.length) (hb : b < l.length), a < b → l[a] ≠ l[b]) : l.Nodup :=
  List.pairwise_iff_getElem.mpr (fun a b ha hb hab => h a b ha hb hab)

theorem getElem_ne_of_nodup (l : List Int) (hnd : l.Nodup) (a b : Nat) (ha : a < l.length)
    (hb : b < l.length) (hab : a ≠ b) : l[a] ≠ l[b] := fun e =>
  hab ((hnd.getElem_inj_iff).mp e)

theorem hitRow_getElem (l : List Int) (r : Int) (i j : Nat)
    (h1 : j < ((hitLoop r l).set i 1).length) (h2 : j < l.length) :
    ((hitLoop r l).set i 1)[j] = if i = j then 1 else if l[j] < r then l[j] + 1 else l[j] := by
  rw [List.getElem_set]
  simp only [hitLoop, List.getElem_map]

theorem hitRow_length (l : List Int) (r : Int) (i : Nat) :
    ((hitLoop r l).set i 1).length = l.length := by
  simp [hitLoop]

theorem rowRel_hit (E : Nat) (w v l L : List Int) (tag : Int) (i : Nat)
    (h : RowRel E w v l L) (hf : findTag tag w v 0 = some i) :
    tag ∈ L ∧ RowRel E w v ((hitLoop (l.getD i 0) l).set i 1) (tag :: L.erase tag) := by
  obtain ⟨_, hiw, hiv, hwi, hvi⟩ := findTag_some tag w v 0 i hf
  simp only [Nat.sub_zero] at hiw hiv hwi hvi
  have hil : i < l.length := by rw [h.llen, ← h.wlen]; exact hiw
  have hr : l.getD i 0 = l[i] := List.getD_eq_getElem l 0 hil
  rw [hr]
  have hri := h.lrange l[i] (List.getElem_mem _)
  have hrk : l[i] ≤ (L.length : Int) := (h.occ i hiv hil).mp hvi
  have hLi : L[(l[i] - 1).toNat]? = some tag := by
    rw [h.tagAt i hiw hiv hil hvi, hwi]
  have hmem : tag ∈ L := List.getElem?_mem hLi
  have hLpos : 1 ≤ L.length := List.length_pos_of_mem hmem
  have hgeq : ∀ j (hj : j < l.length), 1 ≤ l[j] ∧ l[j] ≤ (E : Int) := fun j hj =>
    h.lrange l[j] (List.getElem_mem _)
  refine ⟨hmem, ?_⟩
  refine
    { wlen := h.wlen, vlen := h.vlen, llen := by rw [hitRow_length]; exact h.llen,
      Llen := ?_, Lnodup := ?_, lnodup := ?_, lrange := ?_, vbool := h.vbool, vcount := ?_,
      occ := ?_, tagAt := ?_ }
  · have := h.Llen
    rw [List.length_cons, List.length_erase_of_mem hmem]; omega
  · rw [List.nodup_cons]
    refine ⟨?_, h.Lnodup.erase tag⟩
    rw [h.Lnodup.mem_erase_iff]
    exact fun e => e.1 rfl
  · apply nodup_of_getElem_ne
    intro a b ha hb hab
    have ha2 : a < l.length := by rw [hitRow_length] at ha; exact ha
    have hb2 : b < l.length := by rw [hitRow_length] at hb; exact hb
    rw [hitRow_getElem l _ i a ha ha2, hitRow_getElem l _ i b hb hb2]
    have n1 := getElem_ne_of_nodup l h.lnodup a b ha2 hb2 (by omega)
    have ga := hgeq a ha2
    have gb := hgeq b hb2
    by_cases ea : i = a
    · subst ea
      rw [if_pos rfl, if_neg (by omega)]
      split <;> omega
    · have n2 := getElem_ne_of_nodup l h.lnodup i a hil ha2 ea
      rw [if_neg ea]
      by_cases eb : i = b
      · subst eb
        rw [if_pos rfl]
        split <;> omega
      · have n3 := getElem_ne_of_nodup l h.lnodup i b hil hb2 eb
        rw [if_neg eb]
        split <;> split <;> omega
  · intro x hx
    obtain ⟨j, hj, rfl⟩ := List.mem_iff_getElem.mp hx
    have hj2 : j < l.length := by rw [hitRow_length] at hj; exact hj
    rw [hitRow_getElem l _ i j hj hj2]
    have gj := hgeq j hj2
    split
    · omega
    · split <;> omega
  · rw [List.length_cons, List.length_erase_of_mem hmem, h.vcount]; omega
  · intro j hv hl
    have hj2 : j < l.length := by rw [hitRow_length] at hl; exact hl
    rw [hitRow_getElem l _ i j hl hj2]
    have e : ((tag :: L.erase tag).length : Int) = L.length := by
      rw [List.length_cons, List.length_erase_of_mem hmem]; omega
    rw [e, h.occ j hv hj2]
    have gj := hgeq j hj2
    by_cases ea : i = j
    · subst ea; rw [if_pos rfl]; omega
    · rw [if_neg ea]
      split <;> omega
  · intro j hw hv hl hvj
    have hj2 : j < l.length := by rw [hitRow_length] at hl; exact hl
    rw [hitRow_getElem l _ i j hl hj2]
    have gj := hgeq j hj2
    have hLj := h.tagAt j hw hv hj2 hvj
    have hjk : l[j] ≤ (L.length : Int) := (h.occ j hv hj2).mp hvj
    by_cases ea : i = j
    · subst ea
      rw [if_pos rfl]
      simp [hwi]
    · rw [if_neg ea]
      have n2 := getElem_ne_of_nodup l h.lnodup i j hil hj2 ea
      by_cases hlt : l[j] < l[i]
      · rw [if_pos hlt]
        have e1 : (l[j] + 1 - 1).toNat = (l[j] - 1).toNat + 1 := by omega
        rw [e1, List.getElem?_cons_succ, erase_getElem_opt tag L _ _ h.Lnodup hLi,
          if_pos (by omega), hLj]
      · rw [if_neg hlt]
        have e1 : (l[j] - 1).toNat = (l[j] - 2).toNat + 1 := by omega
        rw [e1, List.getElem?_cons_succ, erase_getElem_opt tag L _ _ h.Lnodup hLi,
          if_neg (by omega), ← e1, hLj]

theorem rowRel_notin (E : Nat) (w v l L : List Int) (tag : Int)
    (h : RowRel E w v l L) (hf : findTag tag w v 0 = none) : tag ∉ L := by
  intro hmem
  obtain ⟨p, hp, hLp⟩ := List.mem_iff_getElem.mp hmem
  have hL := h.Llen
  have hin : ((p : Int) + 1) ∈ l :=
    rank_present E l h.llen h.lnodup h.lrange ((p : Int) + 1) (by omega) (by omega)
  obtain ⟨j, hj, hlj⟩ := List.mem_iff_getElem.mp hin
  have hjv : j < v.length := by rw [h.vlen, ← h.llen]; exact hj
  have hjw : j < w.length := by rw [h.wlen, ← h.llen]; exact hj
  have hvj : v[j] = 1 := (h.occ j hjv hj).mpr (by omega)
  have ht := h.tagAt j hjw hjv hj hvj
  have e : (l[j] - 1).toNat = p := by omega
  rw [e, List.getElem?_eq_getElem hp, hLp] at ht
  injection ht with ht
  exact findTag_none tag w v 0 hf j hjw hjv ⟨ht.symm, hvj⟩

theorem missRow_getElem (E : Int) (l : List Int) (j : Nat) (h1 : j < (missRow E l).length)
    (h2 : j < l.length) : (missRow E l)[j] = if l[j] = E then 1 else l[j] + 1 := by
  simp only [missRow, List.getElem_map]

theorem missRow_length (E : Int) (l : List Int) : (missRow E l).length = l.length := by
  simp [missRow]

theorem missRow_nodup (E : Nat) (l : List Int) (hnd : l.Nodup)
    (hr : ∀ x ∈ l, 1 ≤ x ∧ x ≤ (E : Int)) : (missRow E l).Nodup := by
  apply nodup_of_getElem_ne
  intro a b ha hb hab
  have ha2 : a < l.length := by rw [missRow_length] at ha; exact ha
  have hb2 : b < l.length := by rw [missRow_length] at hb; exact hb
  rw [missRow_getElem _ l a ha ha2, missRow_getElem _ l b hb hb2]
  have n1 := getElem_ne_of_nodup l hnd a b ha2 hb2 (by omega)
  have ga := hr l[a] (List.getElem_mem _)
  have gb := hr l[b] (List.getElem_mem _)
  split <;> split <;> omega

theorem missRow_range (E : Nat) (l : List Int) (hr : ∀ x ∈ l, 1 ≤ x ∧ x ≤ (E : Int)) :
    ∀ x ∈ missRow E l, 1 ≤ x ∧ x ≤ (E : Int) := by
  intro x hx
  obtain ⟨j, hj, rfl⟩ := List.mem_iff_getElem.mp hx
  have hj2 : j < l.length := by rw [missRow_length] at hj; exact hj
  rw [missRow_getElem _ l j hj hj2]
  have gj := hr l[j] (List.getElem_mem _)
  split <;> omega

theorem rowRel_oldest (E : Nat) (w v l L : List Int) (hE : 1 ≤ E) (h : RowRel E w v l L)
    (tmp0 : Option Int) :
    ∃ t, ∃ (ht : t < l.length), l[t] = (E : Int) ∧
      missLoop E l 0 tmp0 = (missRow E l, some (t : Int)) := by
  have hin : (E : Int) ∈ l :=
    rank_present E l h.llen h.lnodup h.lrange E (by omega) (le_refl _)
  obtain ⟨t, ht, hlt⟩ := List.mem_iff_getElem.mp hin
  refine ⟨t, ht, hlt, ?_⟩
  have h1 := missLoop_fst E l 0 tmp0
  have h2 := missLoop_snd E l 0 tmp0 t ht h.lnodup hlt
  rw [Nat.zero_add] at h2
  exact Prod.ext h1 h2

theorem rowRel_full_iff (E : Nat) (w v l L : List Int) (hE : 1 ≤ E) (h : RowRel E w v l L) :
    v.all (fun x => decide (x ≠ 0)) = true ↔ L.length = E := by
  have hL := h.Llen
  rw [List.all_eq_true]
  constructor
  · intro hall
    obtain ⟨t, ht, hlt, _⟩ := rowRel_oldest E w v l L hE h none
    have htv : t < v.length := by rw [h.vlen, ← h.llen]; exact ht
    have h0 : v[t] ≠ 0 := by simpa using hall v[t] (List.getElem_mem _)
    have h1 : v[t] = 1 := by
      rcases h.vbool v[t] (List.getElem_mem _) with e | e
      · exact absurd e h0
      · exact e
    have := (h.occ t htv ht).mp h1
    omega
  · intro hfull x hx
    obtain ⟨j, hj, rfl⟩ := List.mem_iff_getElem.mp hx
    have hjl : j < l.length := by rw [h.llen, ← h.vlen]; exact hj
    have gj := h.lrange l[j] (List.getElem_mem _)
    have : v[j] = 1 := (h.occ j hj hjl).mpr (by omega)
    simp [this]

theorem rowRel_miss_free (E : Nat) (w v l L : List Int) (tag : Int) (t : Nat)
    (h : RowRel E w v l L) (hnot : tag ∉ L) (hfree : L.length ≠ E)
    (ht : t < l.length) (hlt : l[t] = (E : Int)) :
    RowRel E (w.set t tag) (v.set t 1) (missRow E l) (tag :: L) := by
  have hL := h.Llen
  have htv : t < v.length := by rw [h.vlen, ← h.llen]; exact ht
  have hvt : v[t] = 0 := by
    rcases h.vbool v[t] (List.getElem_mem _) with e | e
    · exact e
    · have := (h.occ t htv ht).mp e
      omega
  refine
    { wlen := by rw [List.length_set]; exact h.wlen,
      vlen := by rw [List.length_set]; exact h.vlen,
      llen := by rw [missRow_length]; exact h.llen,
      Llen := by rw [List.length_cons]; omega,
      Lnodup := List.nodup_cons.mpr ⟨hnot, h.Lnodup⟩,
      lnodup := missRow_nodup E l h.lnodup h.lrange,
      lrange := missRow_range E l h.lrange,
      vbool := ?_, vcount := ?_, occ := ?_, tagAt := ?_ }
  · intro x hx
    rcases List.mem_or_eq_of_mem_set hx with e | e
    · exact h.vbool x e
    · exact Or.inr e
  · rw [List.count_set 1 1 v t htv, hvt, List.length_cons, h.vcount]
    simp
  · intro j hv hl
    have hj2 : j < l.length := by rw [missRow_length] at hl; exact hl
    have hj3 : j < v.length := by rw [List.length_set] at hv; exact hv
    rw [missRow_getElem _ l j hl hj2, List.getElem_set, List.length_cons]
    have gj := h.lrange l[j] (List.getElem_mem _)
    by_cases e : t = j
    · subst e
      rw [if_pos rfl, if_pos hlt]
      constructor
      · intro _; push_cast; omega
      · intro _; rfl
    · have n1 := getElem_ne_of_nodup l h.lnodup t j ht hj2 e
      rw [if_neg e, if_neg (by omega), h.occ j hj3 hj2]
      push_cast
      omega
  · intro j hw hv hl hvj
    have hj2 : j < l.length := by rw [missRow_length] at hl; exact hl
    have hj3 : j < v.length := by rw [List.length_set] at hv; exact hv
    have hj4 : j < w.length := by rw [List.length_set] at hw; exact hw
    rw [missRow_getElem _ l j hl hj2, List.getElem_set]
    rw [List.getElem_set] at hvj
    have gj := h.lrange l[j] (List.getElem_mem _)
    by_cases e : t = j
    · subst e
      rw [if_pos rfl, if_pos hlt]
      simp
    · have n1 := getElem_ne_of_nodup l h.lnodup t j ht hj2 e
      rw [if_neg e] at hvj
      rw [if_neg e, if_neg (by omega)]
      have e1 : (l[j] + 1 - 1).toNat = (l[j] - 1).toNat + 1 := by omega
      rw [e1, List.getElem?_cons_succ]
      exact h.tagAt j hj4 hj3 hj2 hvj

theorem rowRel_miss_full (E : Nat) (w v l L : List Int) (tag : Int) (t : Nat) (hE : 1 ≤ E)
    (h : RowRel E w v l L) (hnot : tag ∉ L) (hfull : L.length = E)
    (ht : t < l.length) (hlt : l[t] = (E : Int)) :
    RowRel E (w.set t tag) v (missRow E l) ((tag :: L).dropLast) ∧ w[t]? = L.getLast? := by
  have hne : L ≠ [] := by
    intro e; rw [e] at hfull; simp at hfull; omega
  have hdl : (tag :: L).dropLast = tag :: L.dropLast := List.dropLast_cons_of_ne_nil hne
  have htv : t < v.length := by rw [h.vlen, ← h.llen]; exact ht
  have htw : t < w.length := by rw [h.wlen, ← h.llen]; exact ht
  have hall : ∀ j (hv : j < v.length), v[j] = 1 := by
    intro j hv
    have hjl : j < l.length := by rw [h.llen, ← h.vlen]; exact hv
    have gj := h.lrange l[j] (List.getElem_mem _)
    exact (h.occ j hv hjl).mpr (by omega)
  have hlen : ((tag :: L).dropLast).length = E := by
    rw [hdl, List.length_cons, List.length_dropLast]; omega
  constructor
  · refine
      { wlen := by rw [List.length_set]; exact h.wlen,
        vlen := h.vlen,
        llen := by rw [missRow_length]; exact h.llen,
        Llen := by rw [hlen],
        Lnodup := ?_,
        lnodup := missRow_nodup E l h.lnodup h.lrange,
        lrange := missRow_range E l h.lrange,
        vbool := h.vbool, vcount := by rw [hlen, h.vcount, hfull], occ := ?_, tagAt := ?_ }
    · rw [hdl, List.nodup_cons]
      exact ⟨fun hm => hnot (List.dropLast_subset L hm),
        (List.dropLast_sublist L).nodup h.Lnodup⟩
    · intro j hv hl
      rw [hlen]
      have := missRow_range E l h.lrange _ (List.getElem_mem hl)
      constructor
      · intro _; exact this.2
      · intro _; exact hall j hv
    · intro j hw hv hl _
      have hj2 : j < l.length := by rw [missRow_length] at hl; exact hl
      have hj4 : j < w.length := by rw [List.length_set] at hw; exact hw
      rw [missRow_getElem _ l j hl hj2, List.getElem_set, hdl]
      have gj := h.lrange l[j] (List.getElem_mem _)
      by_cases e : t = j
      · subst e
        rw [if_pos rfl, if_pos hlt]
        simp
      · have n1 := getElem_ne_of_nodup l h.lnodup t j ht hj2 e
        rw [if_neg e, if_neg (by omega)]
        have e1 : (l[j] + 1 - 1).toNat = (l[j] - 1).toNat + 1 := by omega
        rw [e1, List.getElem?_cons_succ, List.getElem?_dropLast, if_pos (by omega)]
        exact h.tagAt j hj4 hv hj2 (hall j hv)
  · have := h.tagAt t htw htv ht (hall t htv)
    rw [List.getLast?_eq_getElem?, List.getElem?_eq_getElem htw]
    rw [← this]
    congr 1
    omega

/-! One sub-access on the whole state -/

theorem access_hit_eq (E n : Nat) (tag : Int) (st : SimState) (i : Nat)
    (hf : findTag tag (st.simCache.cache.getD n []) (st.simCache.valid.getD n []) 0 = some i) :
    access E n tag st = Outcome.ok { st with
      lruMatrix := st.lruMatrix.set n
        ((hitLoop ((st.lruMatrix.getD n []).getD i 0) (st.lruMatrix.getD n [])).set i 1),
      hitCount := st.hitCount + 1,
      tmp := some ((st.lruMatrix.getD n []).getD i 0) } := by
  unfold access
  simp only [hf]

theorem access_miss_eq (E n : Nat) (tag : Int) (st : SimState) (row : List Int) (t : Nat)
    (hf : findTag tag (st.simCache.cache.getD n []) (st.simCache.valid.getD n []) 0 = none)
    (hm : missLoop E (st.lruMatrix.getD n []) 0 st.tmp = (row, some (t : Int)))
    (ht : t < E) :
    access E n tag st =
      if is_set_full st.simCache n E then
        Outcome.ok { st with
          simCache := { st.simCache with
            cache := st.simCache.cache.set n ((st.simCache.cache.getD n []).set t tag) },
          lruMatrix := st.lruMatrix.set n row,
          evCount := st.evCount + 1,
          missCount := st.missCount + 1,
          tmp := some (t : Int) }
      else
        Outcome.ok { st with
          simCache := { st.simCache with
            cache := st.simCache.cache.set n ((st.simCache.cache.getD n []).set t tag),
            valid := st.simCache.valid.set n ((st.simCache.valid.getD n []).set t 1) },
          lruMatrix := st.lruMatrix.set n row,
          missCount := st.missCount + 1,
          tmp := some (t : Int) } := by
  unfold access
  have h1 : (0 : Int) ≤ (t : Int) ∧ (t : Int) < (E : Int) := ⟨by omega, by omega⟩
  simp only [hf, hm, h1, and_self, if_true, Int.toNat_ofNat]

theorem stateRel_access (s E : Nat) (st : SimState) (r : LruRef) (n : Nat) (tag : Int)
    (hE : 1 ≤ E) (hn : n < 2 ^ s) (h : StateRel s E st r) :
    ∃ st1, access E n tag st = Outcome.ok st1 ∧
      StateRel s E st1 (lruRefAccess E r (n, tag)) ∧
      overwrittenTag E n tag st = lruRefVictim E (r.sets n) tag := by
  have hrow := h.rows n hn
  have hnc : n < st.simCache.cache.length := by rw [h.clen]; exact hn
  have hnv : n < st.simCache.valid.length := by rw [h.vlen]; exact hn
  have hnl : n < st.lruMatrix.length := by rw [h.llen]; exact hn
  cases hf : findTag tag (st.simCache.cache.getD n []) (st.simCache.valid.getD n []) 0 with
  | some i =>
    obtain ⟨hmem, hrel⟩ := rowRel_hit E _ _ _ _ tag i hrow hf
    refine ⟨_, access_hit_eq E n tag st i hf, ?_, ?_⟩
    · unfold lruRefAccess
      simp only [if_pos hmem]
      refine
        { clen := h.clen, vlen := h.vlen, llen := by simp only [List.length_set]; exact h.llen,
          rows := ?_, hits := by simp only [h.hits], misses := h.misses,
          evictions := h.evictions }
      intro k hk
      by_cases e : k = n
      · subst e
        simp only [getD_set_same _ _ _ _ hnl, Function.update_same]
        exact hrel
      · simp only [getD_set_other _ _ _ _ _ e, Function.update_noteq e]
        exact h.rows k hk
    · unfold overwrittenTag lruRefVictim
      simp only [hf, if_pos hmem]
  | none =>
    have hnot := rowRel_notin E _ _ _ _ tag hrow hf
    obtain ⟨t, ht, hlt, hm⟩ := rowRel_oldest E _ _ _ _ hE hrow st.tmp
    have htE : t < E := by rw [← hrow.llen]; exact ht
    have hfull := rowRel_full_iff E _ _ _ _ hE hrow
    have hacc := access_miss_eq E n tag st _ t hf hm htE
    by_cases hL : (r.sets n).length = E
    · have hfl : is_set_full st.simCache n E = true := hfull.mpr hL
      obtain ⟨hrel, hvic⟩ := rowRel_miss_full E _ _ _ _ tag t hE hrow hnot hL ht hlt
      rw [hfl, if_pos rfl] at hacc
      refine ⟨_, hacc, ?_, ?_⟩
      · unfold lruRefAccess
        simp only [if_neg hnot, if_pos hL]
        refine
          { clen := by simp only [List.length_set]; exact h.clen, vlen := h.vlen,
            llen := by simp only [List.length_set]; exact h.llen,
            rows := ?_, hits := h.hits, misses := by simp only [h.misses],
            evictions := by simp only [h.evictions] }
        intro k hk
        by_cases e : k = n
        · subst e
          simp only [getD_set_same _ _ _ _ hnl, getD_set_same _ _ _ _ hnc,
            Function.update_same]
          exact hrel
        · simp only [getD_set_other _ _ _ _ _ e, Function.update_noteq e]
          exact h.rows k hk
      · unfold overwrittenTag lruRefVictim
        simp only [hf, hm, if_neg hnot, Int.toNat_ofNat, hfl, if_true, if_pos hL]
        exact hvic
    · have hfl : is_set_full st.simCache n E = false := by
        rw [← Bool.not_eq_true]; exact fun e => hL (hfull.mp e)
      have hrel := rowRel_miss_free E _ _ _ _ tag t hrow hnot hL ht hlt
      rw [hfl, if_neg (by simp)] at hacc
      refine ⟨_, hacc, ?_, ?_⟩
      · unfold lruRefAccess
        simp only [if_neg hnot, if_neg hL]
        refine
          { clen := by simp only [List.length_set]; exact h.clen,
            vlen := by simp only [List.length_set]; exact h.vlen,
            llen := by simp only [List.length_set]; exact h.llen,
            rows := ?_, hits := h.hits, misses := by simp only [h.misses],
            evictions := h.evictions }
        intro k hk
        by_cases e : k = n
        · subst e
          simp only [getD_set_same _ _ _ _ hnl, getD_set_same _ _ _ _ hnc,
            getD_set_same _ _ _ _ hnv, Function.update_same]
          exact hrel
        · simp only [getD_set_other _ _ _ _ _ e, Function.update_noteq e]
          exact h.rows k hk
      · unfold overwrittenTag lruRefVictim
        simp only [hf, if_neg hnot, hfl, Bool.false_eq_true, if_false, if_neg hL]

/-! Whole runs -/

theorem rowRel_init (E : Nat) :
    RowRel E (List.replicate E (-1)) (List.replicate E 0) (lruInitRow E) [] := by
  refine
    { wlen := by simp, vlen := by simp, llen := by simp [lruInitRow],
      Llen := by simp, Lnodup := List.nodup_nil, lnodup := ?_, lrange := ?_, vbool := ?_,
      vcount := ?_, occ := ?_, tagAt := ?_ }
  · unfold lruInitRow
    refine List.Nodup.map ?_ (List.nodup_range E)
    intro a b hab
    simp only at hab
    omega
  · intro x hx
    unfold lruInitRow at hx
    rw [List.mem_map] at hx
    obtain ⟨j, hj, rfl⟩ := hx
    rw [List.mem_range] at hj
    omega
  · intro x hx
    exact Or.inl (List.eq_of_mem_replicate hx)
  · rw [List.count_replicate]
    simp
  · intro j hv hl
    have hl2 : (lruInitRow E)[j] = (j : Int) + 1 := by simp [lruInitRow]
    rw [List.getElem_replicate, hl2]
    simp only [List.length_nil]
    constructor
    · intro e; omega
    · intro e; push_cast at e; omega
  · intro j _ hv _ hvj
    rw [List.getElem_replicate] at hvj
    omega

theorem initState_of_le (s E b : Nat) (hs : s ≤ 30) :
    initState s E b = Outcome.ok (emptyState s E) := by
  have hnn : ¬ (numRows s < 0) := by
    rw [numRows_of_le s hs]
    exact not_lt.mpr (Int.ofNat_nonneg _)
  unfold initState cache_new emptyState
  simp only [if_neg hnn, numRows_toNat_of_le s hs]

theorem initState_of_gt (s E b : Nat) (hs : ¬ s ≤ 30) :
    initState s E b = Outcome.stop Abort.allocationFailure := by
  have hneg : numRows s < 0 := by
    unfold numRows
    rw [if_neg hs]
    decide
  unfold initState cache_new
  simp only [if_pos hneg]

theorem stateRel_init (s E : Nat) : StateRel s E (emptyState s E) lruRefInit := by
  refine
    { clen := by simp [emptyState], vlen := by simp [emptyState],
      llen := by simp [emptyState], rows := ?_, hits := rfl, misses := rfl, evictions := rfl }
  intro n hn
  have e1 : (emptyState s E).simCache.cache.getD n [] = List.replicate E (-1) := by
    simp only [emptyState]
    rw [List.getD_eq_getElem _ _ (by simpa using hn), List.getElem_replicate]
  have e2 : (emptyState s E).simCache.valid.getD n [] = List.replicate E 0 := by
    simp only [emptyState]
    rw [List.getD_eq_getElem _ _ (by simpa using hn), List.getElem_replicate]
  have e3 : (emptyState s E).lruMatrix.getD n [] = lruInitRow E := by
    simp only [emptyState]
    rw [List.getD_eq_getElem _ _ (by simpa using hn), List.getElem_replicate]
  rw [e1, e2, e3]
  exact rowRel_init E

theorem simulateState_of_le (s E b : Nat) (strList : List lineInfo) (hs : s ≤ 30) :
    simulateState s E b strList = runLines s E b (emptyState s E) strList := by
  unfold simulateState
  rw [initState_of_le s E b hs]

theorem simulateState_ok_le (s E b : Nat) (strList : List lineInfo) (st : SimState)
    (h : simulateState s E b strList = Outcome.ok st) : s ≤ 30 := by
  by_contra hs
  unfold simulateState at h
  rw [initState_of_gt s E b hs] at h
  cases h

theorem castInt32_toNat_le (res : Nat) : (castInt32 (res : Int)).toNat ≤ res := by
  unfold castInt32
  omega

theorem addr_to_setNum_cases (addr : Int) (s b : Nat) :
    addr_to_setNum addr s b = Outcome.stop Abort.fatalExit ∨
    ∃ n : Int, addr_to_setNum addr s b = Outcome.ok n ∧ n.toNat < 2 ^ s := by
  unfold addr_to_setNum
  simp only []
  split
  · exact Or.inl rfl
  · rename_i hlt
    refine Or.inr ⟨_, rfl, ?_⟩
    have := toU32_numRows_le s
    exact lt_of_le_of_lt (castInt32_toNat_le _) (by omega)

theorem addr_to_setNum_ok_lt (addr : Int) (s b : Nat) (n : Int)
    (h : addr_to_setNum addr s b = Outcome.ok n) : n.toNat < 2 ^ s := by
  rcases addr_to_setNum_cases addr s b with e | ⟨m, e, hm⟩
  · rw [e] at h; cases h
  · rw [e] at h; injection h with h; subst h; exact hm

theorem subAccesses_lt (s b : Nat) (strList : List lineInfo) :
    ∀ a ∈ subAccesses s b strList, a.1 < 2 ^ s := by
  induction strList with
  | nil => intro a ha; simp [subAccesses] at ha
  | cons l rest ih =>
    intro a ha
    rw [subAccesses] at ha
    split at ha
    · exact ih a ha
    · rename_i n hn
      have hlt := addr_to_setNum_ok_lt _ s b n hn
      simp only at ha
      split at ha
      · rcases List.mem_cons.mp ha with e | ha
        · rw [e]; exact hlt
        · rcases List.mem_cons.mp ha with e | ha
          · rw [e]; exact hlt
          · exact ih a ha
      · rcases List.mem_cons.mp ha with e | ha
        · rw [e]; exact hlt
        · exact ih a ha

theorem runLines_eq_runAccesses (s E b : Nat) (strList : List lineInfo) :
    ∀ st : SimState,
    (∀ l ∈ strList, addr_to_setNum l.address s b ≠ Outcome.stop Abort.fatalExit) →
    runLines s E b st strList = runAccesses E st (subAccesses s b strList) := by
  induction strList with
  | nil => intro st _; simp [runLines, subAccesses, runAccesses]
  | cons l rest ih =>
    intro st hdec
    have hl := hdec l (List.mem_cons_self _ _)
    have hrest : ∀ l ∈ rest, addr_to_setNum l.address s b ≠ Outcome.stop Abort.fatalExit :=
      fun x hx => hdec x (List.mem_cons_of_mem _ hx)
    rcases addr_to_setNum_cases l.address s b with e | ⟨n, e, _⟩
    · exact absurd e hl
    · rw [runLines, subAccesses, processLine]
      simp only [e]
      by_cases hM : l.operation = 'M'
      · simp only [hM, if_true, runAccesses]
        cases h1 : access E n.toNat (addr_to_tag l.address s b) st with
        | stop why => rfl
        | ok st1 =>
          simp only []
          cases h2 : access E n.toNat (addr_to_tag l.address s b) st1 with
          | stop why => rfl
          | ok st2 => exact ih st2 hrest
      · simp only [hM, if_false, runAccesses]
        cases h1 : access E n.toNat (addr_to_tag l.address s b) st with
        | stop why => rfl
        | ok st1 => exact ih st1 hrest

theorem stateRel_runAccesses (s E : Nat) (hE : 1 ≤ E) (accs : List (Nat × Int)) :
    ∀ (st : SimState) (r : LruRef), StateRel s E st r → (∀ a ∈ accs, a.1 < 2 ^ s) →
    ∃ st1, runAccesses E st accs = Outcome.ok st1 ∧ StateRel s E st1 (lruRefRun E r accs) ∧
      evictedTags E st accs = lruRefVictims E r accs := by
  induction accs with
  | nil => intro st r h _; exact ⟨st, rfl, h, rfl⟩
  | cons a rest ih =>
    intro st r h hlt
    obtain ⟨st1, h1, h2, h3⟩ :=
      stateRel_access s E st r a.1 a.2 hE (hlt a (List.mem_cons_self _ _)) h
    obtain ⟨st2, h4, h5, h6⟩ := ih st1 _ h2 (fun x hx => hlt x (List.mem_cons_of_mem _ hx))
    refine ⟨st2, ?_, ?_, ?_⟩
    · rw [runAccesses, h1]; exact h4
    · exact h5
    · rw [evictedTags, lruRefVictims, h1]
      simp only [h3, h6]

theorem rows_out_of_int_range :
    numRows 31 = -(2 ^ 31) ∧
    addr_to_setNum 0x80000000 32 0 = Outcome.stop Abort.fatalExit ∧
    simulate 40 1 0 [] = Outcome.stop Abort.allocationFailure ∧
    simulate 32 1 0 [lineInfo.mk 'L' 0x80000000] = Outcome.stop Abort.allocationFailure := by
  refine ⟨by decide, by decide, by decide, by decide⟩

theorem runLines_ok_decodes (s E b : Nat) (strList : List lineInfo) :
    ∀ st st1 : SimState, runLines s E b st strList = Outcome.ok st1 →
    ∀ l ∈ strList, addr_to_setNum l.address s b ≠ Outcome.stop Abort.fatalExit := by
  induction strList with
  | nil => intro st st1 _ l hl; simp at hl
  | cons x rest ih =>
    intro st st1 h l hl
    rw [runLines] at h
    cases hp : processLine s E b st x with
    | stop why => rw [hp] at h; cases h
    | ok st2 =>
      rw [hp] at h
      rcases List.mem_cons.mp hl with e | hl
      · subst e
        intro hbad
        rw [processLine, hbad] at hp
        cases hp
      · exact ih st2 st1 h l hl

theorem simulateState_stateRel (s E b : Nat) (strList : List lineInfo) (hE : 1 ≤ E)
    (hs : s ≤ 30)
    (hdec : ∀ l ∈ strList, addr_to_setNum l.address s b ≠ Outcome.stop Abort.fatalExit) :
    ∃ st, simulateState s E b strList = Outcome.ok st ∧
      StateRel s E st (lruRefRun E lruRefInit (subAccesses s b strList)) ∧
      evictedTags E (emptyState s E) (subAccesses s b strList) =
        lruRefVictims E lruRefInit (subAccesses s b strList) := by
  rw [simulateState_of_le s E b strList hs, runLines_eq_runAccesses s E b strList _ hdec]
  exact stateRel_runAccesses s E hE _ _ _ (stateRel_init s E) (subAccesses_lt s b strList)

theorem simulateState_ok_decodes (s E b : Nat) (strList : List lineInfo) (st : SimState)
    (h : simulateState s E b strList = Outcome.ok st) :
    ∀ l ∈ strList, addr_to_setNum l.address s b ≠ Outcome.stop Abort.fatalExit := by
  have hs := simulateState_ok_le s E b strList st h
  rw [simulateState_of_le s E b strList hs] at h
  exact runLines_ok_decodes s E b strList _ _ h

theorem reachable_stateRel (s E b : Nat) (st : SimState) (hE : 1 ≤ E)
    (hr : Reachable s E b st) : ∃ r, StateRel s E st r := by
  obtain ⟨strList, hst⟩ := hr
  have hs := simulateState_ok_le s E b strList st hst
  have hdec := simulateState_ok_decodes s E b strList st hst
  obtain ⟨st1, h1, h2, _⟩ := simulateState_stateRel s E b strList hE hs hdec
  rw [hst] at h1
  injection h1 with h1
  subst h1
  exact ⟨_, h2⟩

theorem reachable_le (s E b : Nat) (st : SimState) (hr : Reachable s E b st) : s ≤ 30 := by
  obtain ⟨strList, hst⟩ := hr
  exact simulateState_ok_le s E b strList st hst

theorem access_counters (E n : Nat) (tag : Int) (st st1 : SimState)
    (h : access E n tag st = Outcome.ok st1) :
    (st1.hitCount = st.hitCount + 1 ∧ st1.missCount = st.missCount ∧
      st1.evCount = st.evCount) ∨
    (st1.hitCount = st.hitCount ∧ st1.missCount = st.missCount + 1 ∧
      (st1.evCount = st.evCount ∨ st1.evCount = st.evCount + 1)) := by
  unfold access at h
  simp only [] at h
  split at h
  · injection h with h
    subst h
    exact Or.inl ⟨rfl, rfl, rfl⟩
  · split at h
    · split at h
      · cases h
      · split at h
        · injection h with h
          subst h
          exact Or.inr ⟨rfl, rfl, Or.inr rfl⟩
        · cases h
    · split at h
      · cases h
      · split at h
        · injection h with h
          subst h
          exact Or.inr ⟨rfl, rfl, Or.inl rfl⟩
        · cases h

theorem processLine_counters (s E b : Nat) (st st1 : SimState) (l : lineInfo)
    (h : processLine s E b st l = Outcome.ok st1) :
    st1.hitCount + st1.missCount = st.hitCount + st.missCount + subAccessCount l.operation := by
  unfold processLine at h
  split at h
  · cases h
  · simp only [] at h
    split at h
    · cases h
    · rename_i st2 h2
      have c2 := access_counters _ _ _ _ _ h2
      unfold subAccessCount
      split at h
      · rename_i hM
        have c3 := access_counters _ _ _ _ _ h
        rw [if_pos hM]
        omega
      · rename_i hM
        injection h with h
        subst h
        rw [if_neg hM]
        omega

theorem runLines_counters (s E b : Nat) (strList : List lineInfo) :
    ∀ st st1 : SimState, runLines s E b st strList = Outcome.ok st1 →
    st1.hitCount + st1.missCount = st.hitCount + st.missCount + total_sub_accesses strList := by
  induction strList with
  | nil =>
    intro st st1 h
    rw [runLines] at h
    injection h with h
    subst h
    simp [total_sub_accesses]
  | cons x rest ih =>
    intro st st1 h
    rw [runLines] at h
    cases hp : processLine s E b st x with
    | stop why => rw [hp] at h; cases h
    | ok st2 =>
      rw [hp] at h
      have c1 := processLine_counters s E b st st2 x hp
      have c2 := ih st2 st1 h
      have e : total_sub_accesses (x :: rest) =
          subAccessCount x.operation + total_sub_accesses rest := by
        simp [total_sub_accesses]
      rw [e]
      omega

theorem lruRefAccess_mem (E : Nat) (hE : 1 ≤ E) (r : LruRef) (a : Nat × Int) :
    a.2 ∈ (lruRefAccess E r a).sets a.1 := by
  unfold lruRefAccess
  split
  · simp
  · split
    · rename_i hlen
      have hne : r.sets a.1 ≠ [] := by
        intro e; rw [e] at hlen; simp at hlen; omega
      simp [List.dropLast_cons_of_ne_nil hne]
    · simp

/-! Facts about the reference model -/

theorem tagsOf_cons_subset (a : Nat × Int) (rest : List (Nat × Int)) (n : Nat) :
    tagsOf rest n ⊆ tagsOf (a :: rest) n := by
  intro x hx
  unfold tagsOf at hx ⊢
  rw [List.mem_map] at hx ⊢
  obtain ⟨y, hy, rfl⟩ := hx
  rw [List.mem_filter] at hy
  exact ⟨y, List.mem_filter.mpr ⟨List.mem_cons_of_mem _ hy.1, hy.2⟩, rfl⟩

theorem tagsOf_cons_self (a : Nat × Int) (rest : List (Nat × Int)) :
    a.2 ∈ tagsOf (a :: rest) a.1 := by
  unfold tagsOf
  rw [List.mem_map]
  exact ⟨a, List.mem_filter.mpr ⟨List.mem_cons_self _ _, by simp⟩, rfl⟩

theorem lruRefAccess_sets_subset (E : Nat) (r : LruRef) (a : Nat × Int) (n : Nat) (x : Int)
    (hx : x ∈ (lruRefAccess E r a).sets n) : x ∈ r.sets n ∨ (n = a.1 ∧ x = a.2) := by
  by_cases e : n = a.1
  · subst e
    unfold lruRefAccess at hx
    split at hx
    · simp only [Function.update_same, List.mem_cons] at hx
      rcases hx with h | h
      · exact Or.inr ⟨rfl, h⟩
      · exact Or.inl (List.mem_of_mem_erase h)
    · split at hx
      · simp only [Function.update_same] at hx
        rcases List.mem_cons.mp (List.dropLast_subset _ hx) with h | h
        · exact Or.inr ⟨rfl, h⟩
        · exact Or.inl h
      · simp only [Function.update_same, List.mem_cons] at hx
        rcases hx with h | h
        · exact Or.inr ⟨rfl, h⟩
        · exact Or.inl h
  · left
    unfold lruRefAccess at hx
    split at hx
    · simpa only [Function.update_noteq e] using hx
    · split at hx
      · simpa only [Function.update_noteq e] using hx
      · simpa only [Function.update_noteq e] using hx

theorem lruRefAccess_nodup (E : Nat) (r : LruRef) (a : Nat × Int)
    (hnd : ∀ n, (r.sets n).Nodup) : ∀ n, ((lruRefAccess E r a).sets n).Nodup := by
  intro n
  unfold lruRefAccess
  by_cases e : n = a.1
  · subst e
    split
    · simp only [Function.update_same]
      rw [List.nodup_cons, (hnd _).mem_erase_iff]
      exact ⟨fun h => h.1 rfl, (hnd _).erase _⟩
    · rename_i hnot
      split
      · simp only [Function.update_same]
        exact (List.dropLast_sublist _).nodup (List.nodup_cons.mpr ⟨hnot, hnd _⟩)
      · simp only [Function.update_same]
        exact List.nodup_cons.mpr ⟨hnot, hnd _⟩
  · split
    · simp only [Function.update_noteq e]; exact hnd n
    · split
      · simp only [Function.update_noteq e]; exact hnd n
      · simp only [Function.update_noteq e]; exact hnd n

theorem lruRefAccess_evictions (E : Nat) (r : LruRef) (a : Nat × Int) (rest : List (Nat × Int))
    (hnd : ∀ n, (r.sets n).Nodup)
    (hcap : ∀ n, (r.sets n ++ tagsOf (a :: rest) n).toFinset.card ≤ E) :
    (lruRefAccess E r a).evictions = r.evictions := by
  unfold lruRefAccess
  split
  · rfl
  · rename_i hnot
    split
    · rename_i hlen
      exfalso
      have h1 : (a.2 :: r.sets a.1).toFinset.card = E + 1 := by
        rw [List.toFinset_card_of_nodup (List.nodup_cons.mpr ⟨hnot, hnd _⟩), List.length_cons,
          hlen]
      have h2 : (a.2 :: r.sets a.1).toFinset ⊆ (r.sets a.1 ++ tagsOf (a :: rest) a.1).toFinset := by
        intro x hx
        rw [List.mem_toFinset] at hx ⊢
        rcases List.mem_cons.mp hx with h | h
        · rw [h]; exact List.mem_append_right _ (tagsOf_cons_self a rest)
        · exact List.mem_append_left _ h
      have h3 := Finset.card_le_card h2
      have h4 := hcap a.1
      omega
    · rfl

theorem lruRefRun_evictions (E : Nat) (accs : List (Nat × Int)) :
    ∀ r : LruRef, (∀ n, (r.sets n).Nodup) →
    (∀ n, (r.sets n ++ tagsOf accs n).toFinset.card ≤ E) →
    (lruRefRun E r accs).evictions = r.evictions := by
  induction accs with
  | nil => intro r _ _; rfl
  | cons a rest ih =>
    intro r hnd hcap
    have e : lruRefRun E r (a :: rest) = lruRefRun E (lruRefAccess E r a) rest := rfl
    rw [e, ih _ (lruRefAccess_nodup E r a hnd) ?_, lruRefAccess_evictions E r a rest hnd hcap]
    intro n
    refine le_trans (Finset.card_le_card ?_) (hcap n)
    intro x hx
    rw [List.mem_toFinset, List.mem_append] at hx ⊢
    rcases hx with h | h
    · rcases lruRefAccess_sets_subset E r a n x h with h | ⟨h1, h2⟩
      · exact Or.inl h
      · right; rw [h1, h2]; exact tagsOf_cons_self a rest
    · exact Or.inr (tagsOf_cons_subset a rest n h)

/-! Lemmas for the statements about reachable states -/

theorem expandModify_runLines (s E b : Nat) (strList : List lineInfo) :
    ∀ st : SimState,
    runLines s E b st (expandModify strList) = runLines s E b st strList := by
  induction strList with
  | nil => intro st; rfl
  | cons x rest ih =>
    intro st
    by_cases hM : x.operation = 'M'
    · have hL : ¬ (('L' : Char) = 'M') := by decide
      have hS : ¬ (('S' : Char) = 'M') := by decide
      simp only [expandModify, if_pos hM, runLines, processLine, if_neg hL, if_neg hS]
      cases addr_to_setNum x.address s b with
      | stop why => rfl
      | ok n =>
        simp only []
        cases access E n.toNat (addr_to_tag x.address s b) st with
        | stop why => rfl
        | ok st1 =>
          simp only []
          cases access E n.toNat (addr_to_tag x.address s b) st1 with
          | stop why => rfl
          | ok st2 => exact ih st2
    · simp only [expandModify, if_neg hM, runLines]
      cases processLine s E b st x with
      | stop why => rfl
      | ok st1 => exact ih st1

theorem initState_rows_E0 (s n : Nat) :
    (emptyState s 0).simCache.cache.getD n [] = [] ∧
    (emptyState s 0).simCache.valid.getD n [] = [] ∧
    (emptyState s 0).lruMatrix.getD n [] = [] := by
  simp only [emptyState, lruInitRow, List.getD_eq_getElem?_getD,
    List.getElem?_replicate, List.replicate_zero, List.range_zero, List.map_nil]
  refine ⟨?_, ?_, ?_⟩ <;> split <;> rfl

theorem reachable_E0 (s b : Nat) (st : SimState) (hr : Reachable s 0 b st) :
    st = emptyState s 0 := by
  obtain ⟨strList, hst⟩ := hr
  have hs := simulateState_ok_le s 0 b strList st hst
  rw [simulateState_of_le s 0 b strList hs] at hst
  cases strList with
  | nil =>
    rw [runLines] at hst
    injection hst with hst
    exact hst.symm
  | cons x rest =>
    exfalso
    have hacc : ∀ n tag, access 0 n tag (emptyState s 0) =
        Outcome.stop Abort.undefinedBehaviour := by
      intro n tag
      unfold access
      obtain ⟨h1, h2, h3⟩ := initState_rows_E0 s n
      have ht : (emptyState s 0).tmp = none := rfl
      simp only [h1, h2, h3, findTag, missLoop, ht]
      split <;> rfl
    rw [runLines, processLine] at hst
    cases hd : addr_to_setNum x.address s b with
    | stop why => rw [hd] at hst; cases hst
    | ok n =>
      rw [hd] at hst
      simp only [hacc] at hst
      cases hst

theorem rowRel_tags_distinct (E : Nat) (w v l L : List Int) (h : RowRel E w v l L)
    (i j : Nat) (hi : i < E) (hj : j < E)
    (hvi : v.getD i 0 = 1) (hvj : v.getD j 0 = 1) (hw : w.getD i (-1) = w.getD j (-1)) :
    i = j := by
  have hiw : i < w.length := by rw [h.wlen]; exact hi
  have hjw : j < w.length := by rw [h.wlen]; exact hj
  have hiv : i < v.length := by rw [h.vlen]; exact hi
  have hjv : j < v.length := by rw [h.vlen]; exact hj
  have hil : i < l.length := by rw [h.llen]; exact hi
  have hjl : j < l.length := by rw [h.llen]; exact hj
  rw [List.getD_eq_getElem _ _ hiv] at hvi
  rw [List.getD_eq_getElem _ _ hjv] at hvj
  rw [List.getD_eq_getElem _ _ hiw, List.getD_eq_getElem _ _ hjw] at hw
  have ti := h.tagAt i hiw hiv hil hvi
  have tj := h.tagAt j hjw hjv hjl hvj
  obtain ⟨bi, ei⟩ := List.getElem?_eq_some.mp ti
  obtain ⟨bj, ej⟩ := List.getElem?_eq_some.mp tj
  have hidx : (l[i] - 1).toNat = (l[j] - 1).toNat :=
    (h.Lnodup.getElem_inj_iff).mp (by rw [ei, ej, hw])
  have gi := h.lrange l[i] (List.getElem_mem _)
  have gj := h.lrange l[j] (List.getElem_mem _)
  exact (h.lnodup.getElem_inj_iff).mp (by omega : l[i] = l[j])

theorem getD_one_lt (v : List Int) (j : Nat) (h : v.getD j 0 = 1) : j < v.length := by
  by_contra hn
  rw [List.getD_eq_default _ _ (by omega)] at h
  omega

theorem distinctTags_of_ge (s b : Nat) (strList : List lineInfo) (n : Nat)
    (hn : 2 ^ s ≤ n) : distinctTags s b strList n = 0 := by
  have : tagsOf (subAccesses s b strList) n = [] := by
    unfold tagsOf
    rw [List.map_eq_nil_iff, List.filter_eq_nil_iff]
    intro a ha
    have := subAccesses_lt s b strList a ha
    simp only [decide_eq_true_eq]
    omega
  unfold distinctTags
  rw [this]
  rfl

/-! Statements about `simulate` -/

/-- C1. For `E ≥ 1` and a record sequence none of whose addresses takes the fatal exit of
the decoder, in every geometry: whatever counters `simulate` returns are exactly those of the
reference LRU model fed the decoded `(setNum, tag)` sequence. Moreover, when the row count
`2 ^ s` fits an `int` (`s ≤ 30`, otherwise `cache_new` cannot allocate and nothing is
returned), `simulate` does return these counters; the tags overwritten by its evictions are,
in order, the last (least recently referenced) tags that the reference model removes; and
every reference list holds at most `E` distinct tags. -/
theorem simulate_refines_lruReference (s E b : Nat) (strList : List lineInfo) (hE : 1 ≤ E)
    (hdec : ∀ l ∈ strList, addr_to_setNum l.address s b ≠ Outcome.stop Abort.fatalExit) :
    (∀ d, simulate s E b strList = Outcome.ok d →
      d = lruReference E (subAccesses s b strList)) ∧
    (s ≤ 30 →
      simulate s E b strList = Outcome.ok (lruReference E (subAccesses s b strList)) ∧
      (∃ st0, initState s E b = Outcome.ok st0 ∧
        evictedTags E st0 (subAccesses s b strList) =
          lruRefVictims E lruRefInit (subAccesses s b strList)) ∧
      ∀ n, n < 2 ^ s →
        ((lruRefRun E lruRefInit (subAccesses s b strList)).sets n).length ≤ E ∧
        ((lruRefRun E lruRefInit (subAccesses s b strList)).sets n).Nodup) := by
  have hmain : s ≤ 30 →
      simulate s E b strList = Outcome.ok (lruReference E (subAccesses s b strList)) ∧
      (∃ st0, initState s E b = Outcome.ok st0 ∧
        evictedTags E st0 (subAccesses s b strList) =
          lruRefVictims E lruRefInit (subAccesses s b strList)) ∧
      ∀ n, n < 2 ^ s →
        ((lruRefRun E lruRefInit (subAccesses s b strList)).sets n).length ≤ E ∧
        ((lruRefRun E lruRefInit (subAccesses s b strList)).sets n).Nodup := by
    intro hs
    obtain ⟨st, h1, h2, h3⟩ := simulateState_stateRel s E b strList hE hs hdec
    refine ⟨?_, ⟨emptyState s E, initState_of_le s E b hs, h3⟩,
      fun n hn => ⟨(h2.rows n hn).Llen, (h2.rows n hn).Lnodup⟩⟩
    unfold simulate lruReference
    rw [h1]
    simp only [h2.hits, h2.misses, h2.evictions]
  refine ⟨?_, hmain⟩
  intro d hd
  have hs : s ≤ 30 := by
    unfold simulate at hd
    cases hst : simulateState s E b strList with
    | stop why => rw [hst] at hd; cases hd
    | ok st => exact simulateState_ok_le s E b strList st hst
  rw [(hmain hs).1] at hd
  injection hd with hd
  exact hd.symm

theorem simulate_refines_lruReference_witness :
    (1 ≤ 2 ∧ (∀ l ∈ [lineInfo.mk 'L' 0, lineInfo.mk 'L' 2, lineInfo.mk 'L' 4,
        lineInfo.mk 'M' 0, lineInfo.mk 'S' 6],
      addr_to_setNum l.address 1 0 ≠ Outcome.stop Abort.fatalExit) ∧ 1 ≤ 30) ∧
    (simulate 1 2 0 [lineInfo.mk 'L' 0, lineInfo.mk 'L' 2, lineInfo.mk 'L' 4,
        lineInfo.mk 'M' 0, lineInfo.mk 'S' 6] =
      Outcome.ok (lruReference 2 (subAccesses 1 0 [lineInfo.mk 'L' 0, lineInfo.mk 'L' 2,
        lineInfo.mk 'L' 4, lineInfo.mk 'M' 0, lineInfo.mk 'S' 6])) ∧
    (∃ st0, initState 1 2 0 = Outcome.ok st0 ∧
      evictedTags 2 st0 (subAccesses 1 0 [lineInfo.mk 'L' 0, lineInfo.mk 'L' 2,
        lineInfo.mk 'L' 4, lineInfo.mk 'M' 0, lineInfo.mk 'S' 6]) =
      lruRefVictims 2 lruRefInit (subAccesses 1 0 [lineInfo.mk 'L' 0, lineInfo.mk 'L' 2,
        lineInfo.mk 'L' 4, lineInfo.mk 'M' 0, lineInfo.mk 'S' 6])) ∧
    ∀ n, n < 2 ^ 1 →
      ((lruRefRun 2 lruRefInit (subAccesses 1 0 [lineInfo.mk 'L' 0, lineInfo.mk 'L' 2,
        lineInfo.mk 'L' 4, lineInfo.mk 'M' 0, lineInfo.mk 'S' 6])).sets n).length ≤ 2 ∧
      ((lruRefRun 2 lruRefInit (subAccesses 1 0 [lineInfo.mk 'L' 0, lineInfo.mk 'L' 2,
        lineInfo.mk 'L' 4, lineInfo.mk 'M' 0, lineInfo.mk 'S' 6])).sets n).Nodup) :=
  ⟨⟨by decide, by decide, by decide⟩,
    (simulate_refines_lruReference 1 2 0 _ (by decide) (by decide)).2 (by decide)⟩

/-- C2. Whenever `simulate` processes the record sequence to the end, the returned counters
satisfy `hits + misses = total_sub_accesses`, an `M` record counting 2 and an `L` or `S`
record counting 1. -/
theorem hits_add_misses_eq_total (s E b : Nat) (strList : List lineInfo) (d : cacheSimData)
    (h : simulate s E b strList = Outcome.ok d) :
    d.hits + d.misses = total_sub_accesses strList := by
  unfold simulate at h
  cases hs : simulateState s E b strList with
  | stop why => rw [hs] at h; cases h
  | ok st =>
    rw [hs] at h
    injection h with h
    subst h
    have hle := simulateState_ok_le s E b strList st hs
    rw [simulateState_of_le s E b strList hle] at hs
    have := runLines_counters s E b strList _ _ hs
    simpa [cacheSimData_new, emptyState] using this

theorem hits_add_misses_eq_total_witness :
    simulate 2 2 1 [lineInfo.mk 'L' 0x10, lineInfo.mk 'M' 0x20, lineInfo.mk 'S' 0x10] =
      Outcome.ok (cacheSimData.mk 2 2 0) ∧
    (cacheSimData.mk 2 2 0).hits + (cacheSimData.mk 2 2 0).misses =
      total_sub_accesses [lineInfo.mk 'L' 0x10, lineInfo.mk 'M' 0x20, lineInfo.mk 'S' 0x10] :=
  ⟨by decide, hits_add_misses_eq_total 2 2 1 _ _ (by decide)⟩

/-- C3. In a reachable state with `E ≥ 1`, for an `M` record whose address decodes without
the fatal exit, the first sub-access completes and the second sub-access (the pass reached
through `goto twice`) finds the tag in the set, so it takes the hit branch: `hitCount` grows
by one, `missCount` and `evCount` are unchanged. -/
theorem modify_second_access_hits (s E b : Nat) (st : SimState) (addr : Int) (hE : 1 ≤ E)
    (hr : Reachable s E b st)
    (hdec : addr_to_setNum addr s b ≠ Outcome.stop Abort.fatalExit) :
    ∃ (setNum : Int) (st1 st2 : SimState),
      addr_to_setNum addr s b = Outcome.ok setNum ∧
      access E setNum.toNat (addr_to_tag addr s b) st = Outcome.ok st1 ∧
      findTag (addr_to_tag addr s b) (st1.simCache.cache.getD setNum.toNat [])
        (st1.simCache.valid.getD setNum.toNat []) 0 ≠ none ∧
      access E setNum.toNat (addr_to_tag addr s b) st1 = Outcome.ok st2 ∧
      processLine s E b st (lineInfo.mk 'M' addr) = Outcome.ok st2 ∧
      st2.hitCount = st1.hitCount + 1 ∧ st2.missCount = st1.missCount ∧
      st2.evCount = st1.evCount := by
  obtain ⟨r, hrel⟩ := reachable_stateRel s E b st hE hr
  rcases addr_to_setNum_cases addr s b with e | ⟨n, e, hn⟩
  · exact absurd e hdec
  · obtain ⟨st1, h1, hrel1, _⟩ := stateRel_access s E st r n.toNat (addr_to_tag addr s b) hE hn hrel
    have hmem := lruRefAccess_mem E hE r (n.toNat, addr_to_tag addr s b)
    have hfind : findTag (addr_to_tag addr s b) (st1.simCache.cache.getD n.toNat [])
        (st1.simCache.valid.getD n.toNat []) 0 ≠ none := by
      intro hnone
      exact rowRel_notin E _ _ _ _ _ (hrel1.rows n.toNat hn) hnone hmem
    obtain ⟨i, hi⟩ := Option.ne_none_iff_exists'.mp hfind
    have h2 := access_hit_eq E n.toNat (addr_to_tag addr s b) st1 i hi
    refine ⟨n, st1, _, e, h1, hfind, h2, ?_, rfl, rfl, rfl⟩
    unfold processLine
    simp only [e, h1, if_true, h2]

theorem modify_second_access_hits_witness :
    (1 ≤ 1 ∧ Reachable 1 1 0 (SimState.mk (cache_t.mk [[1], [-1]] [[1], [0]] 1)
        [[1], [1]] 0 2 1 (some 0)) ∧
      addr_to_setNum 4 1 0 ≠ Outcome.stop Abort.fatalExit) ∧
    ∃ (setNum : Int) (st1 st2 : SimState),
      addr_to_setNum 4 1 0 = Outcome.ok setNum ∧
      access 1 setNum.toNat (addr_to_tag 4 1 0) (SimState.mk (cache_t.mk [[1], [-1]]
        [[1], [0]] 1) [[1], [1]] 0 2 1 (some 0)) = Outcome.ok st1 ∧
      findTag (addr_to_tag 4 1 0) (st1.simCache.cache.getD setNum.toNat [])
        (st1.simCache.valid.getD setNum.toNat []) 0 ≠ none ∧
      access 1 setNum.toNat (addr_to_tag 4 1 0) st1 = Outcome.ok st2 ∧
      processLine 1 1 0 (SimState.mk (cache_t.mk [[1], [-1]] [[1], [0]] 1)
        [[1], [1]] 0 2 1 (some 0)) (lineInfo.mk 'M' 4) = Outcome.ok st2 ∧
      st2.hitCount = st1.hitCount + 1 ∧ st2.missCount = st1.missCount ∧
      st2.evCount = st1.evCount :=
  ⟨⟨by decide, ⟨[lineInfo.mk 'L' 0, lineInfo.mk 'S' 2], by decide⟩, by decide⟩,
    modify_second_access_hits 1 1 0 _ 4 (by decide)
      ⟨[lineInfo.mk 'L' 0, lineInfo.mk 'S' 2], by decide⟩ (by decide)⟩

/-- C4. Replacing every `M` record by a load and a store of the same address leaves the
run of `simulate` unchanged: same final state (tags, valid flags, recency values, counters)
and same returned counters, for every geometry and record sequence. -/
theorem modify_eq_load_then_store (s E b : Nat) (strList : List lineInfo) :
    simulateState s E b (expandModify strList) = simulateState s E b strList ∧
    simulate s E b (expandModify strList) = simulate s E b strList := by
  have h : simulateState s E b (expandModify strList) = simulateState s E b strList := by
    unfold simulateState
    cases initState s E b with
    | stop why => rfl
    | ok st => exact expandModify_runLines s E b strList st
  exact ⟨h, by unfold simulate; rw [h]⟩

/-- C5. For `E ≥ 1`, when `simulate` processes the record sequence to the end and no set
is accessed with more than `E` distinct tags, the returned eviction counter is 0. -/
theorem no_eviction_within_capacity (s E b : Nat) (strList : List lineInfo)
    (d : cacheSimData) (hE : 1 ≤ E) (h : simulate s E b strList = Outcome.ok d)
    (hcap : ∀ n, distinctTags s b strList n ≤ E) : d.evictions = 0 := by
  have hdec : ∀ l ∈ strList, addr_to_setNum l.address s b ≠ Outcome.stop Abort.fatalExit := by
    unfold simulate at h
    cases hs : simulateState s E b strList with
    | stop why => rw [hs] at h; cases h
    | ok st => exact simulateState_ok_decodes s E b strList st hs
  have hle : s ≤ 30 := by
    unfold simulate at h
    cases hs : simulateState s E b strList with
    | stop why => rw [hs] at h; cases h
    | ok st => exact simulateState_ok_le s E b strList st hs
  obtain ⟨st, h1, h2, _⟩ := simulateState_stateRel s E b strList hE hle hdec
  unfold simulate at h
  rw [h1] at h
  injection h with h
  subst h
  have := lruRefRun_evictions E (subAccesses s b strList) lruRefInit
    (fun _ => List.nodup_nil) (fun n => by simpa [lruRefInit, distinctTags] using hcap n)
  simp only [cacheSimData_new, h2.evictions, this]
  rfl

theorem no_eviction_within_capacity_witness :
    (1 ≤ 2 ∧
      simulate 1 2 0 [lineInfo.mk 'L' 0, lineInfo.mk 'L' 2, lineInfo.mk 'M' 1,
        lineInfo.mk 'S' 0, lineInfo.mk 'L' 3] = Outcome.ok (cacheSimData.mk 2 4 0) ∧
      ∀ n, distinctTags 1 0 [lineInfo.mk 'L' 0, lineInfo.mk 'L' 2, lineInfo.mk 'M' 1,
        lineInfo.mk 'S' 0, lineInfo.mk 'L' 3] n ≤ 2) ∧
    (cacheSimData.mk 2 4 0).evictions = 0 :=
  have hcap : ∀ n, distinctTags 1 0 [lineInfo.mk 'L' 0, lineInfo.mk 'L' 2, lineInfo.mk 'M' 1,
      lineInfo.mk 'S' 0, lineInfo.mk 'L' 3] n ≤ 2 := by
    intro n
    match n with
    | 0 => decide
    | 1 => decide
    | k + 2 =>
      rw [distinctTags_of_ge 1 0 _ (k + 2) (by norm_num)]
      exact Nat.zero_le 2
  ⟨⟨by decide, by decide, hcap⟩,
    no_eviction_within_capacity 1 2 0 _ _ (by decide) (by decide) hcap⟩

/-- C6. For every address and every `s ≥ 1`, `b ≥ 0` with `s + b ≤ 30`, `addr_to_setNum`
does not take the fatal exit and returns `(address >> b) mod 2 ^ s`, the `s` address bits
immediately above the low `b` bits. -/
theorem addr_to_setNum_spec (addr : Int) (s b : Nat) (hs : 1 ≤ s) (hsb : s + b ≤ 30) :
    addr_to_setNum addr s b = Outcome.ok ((addr >>> b) % 2 ^ s) := by
  have hm1 : shiftMaskLoop b 1 = (2 ^ 1 - 1) * 2 ^ b := by
    rw [shiftMaskLoop_eq b 1 (by norm_num), Nat.mod_eq_of_lt]
    · simp
    · simpa using block_lt 1 b 32 (by omega)
  have hm2 : widenMaskLoop s (shiftMaskLoop b 1) = (2 ^ s - 1) * 2 ^ b := by
    obtain ⟨c, rfl⟩ : ∃ c, s = c + 1 := ⟨s - 1, by omega⟩
    rw [hm1, widenMaskLoop_block c 1 b (by omega) (by omega)]
    congr 3; omega
  have hlt31 : (2 ^ s - 1) * 2 ^ b < 2 ^ 31 := block_lt s b 31 (by omega)
  have hres : shiftResLoop b ((toU64 addr &&& sext32 ((2 ^ s - 1) * 2 ^ b)) % 2 ^ 32)
      = toU64 addr / 2 ^ b % 2 ^ s := by
    have : sext32 ((2 ^ s - 1) * 2 ^ b) = (2 ^ s - 1) * 2 ^ b := by
      unfold sext32; rw [if_pos hlt31]
    rw [this, shiftResLoop_eq, Nat.mod_eq_of_lt, and_block_div]
    exact lt_of_le_of_lt Nat.and_le_right (lt_trans hlt31 (by norm_num))
  have hlt : toU64 addr / 2 ^ b % 2 ^ s < 2 ^ s := Nat.mod_lt _ (Nat.two_pow_pos _)
  have hlt30 : toU64 addr / 2 ^ b % 2 ^ s < 2 ^ 30 :=
    lt_of_lt_of_le hlt (Nat.pow_le_pow_right (by norm_num) (by omega))
  have hnot : ¬ (toU64 addr / 2 ^ b % 2 ^ s ≥ toU32 (numRows s)) := by
    rw [toU32_numRows_of_le s (by omega)]; omega
  simp only [addr_to_setNum, hm2, hres, if_neg hnot]
  refine congrArg Outcome.ok ?_
  rw [Int.shiftRight_eq_div_pow, Nat.cast_pow, Nat.cast_ofNat,
    ← toU64_div_mod addr s b (by omega)]
  unfold castInt32
  have : (0:Int) ≤ ((toU64 addr / 2 ^ b % 2 ^ s : Nat) : Int) := Int.ofNat_nonneg _
  have h30 : ((toU64 addr / 2 ^ b % 2 ^ s : Nat) : Int) < 2 ^ 30 := by exact_mod_cast hlt30
  omega

theorem addr_to_setNum_spec_witness :
    (1 ≤ 3 ∧ 3 + 1 ≤ 30) ∧ addr_to_setNum 0xA 3 1 = Outcome.ok (((0xA : Int) >>> 1) % 2 ^ 3) :=
  ⟨by decide, addr_to_setNum_spec 0xA 3 1 (by decide) (by decide)⟩

/-- C7. `addr_to_tag` keeps only the low 32 bits of `address >> (s + b)`: with
`s = b = 0` the addresses `0` and `2 ^ 32` both get tag `0` although their values of
`address >> (s + b)` differ, and a load of `2 ^ 32` after a load of `0` is counted as a hit
in a one-line cache. -/
theorem addr_to_tag_drops_high_bits :
    addr_to_tag (2 ^ 32) 0 0 = 0 ∧ addr_to_tag 0 0 0 = 0 ∧
    ((2 : Int) ^ 32) >>> (0 + 0) ≠ (0 : Int) >>> (0 + 0) ∧
    addr_to_tag (2 ^ 32) 0 0 ≠ ((2 : Int) ^ 32) >>> (0 + 0) ∧
    simulate 0 1 0 [lineInfo.mk 'L' 0, lineInfo.mk 'L' (2 ^ 32)] =
      Outcome.ok (cacheSimData.mk 1 1 0) := by
  refine ⟨by decide, by decide, by decide, by decide, by decide⟩

/-- C8. With `s = 0` the decoder still masks bit `b` of the address: for the address `1`
and `b = 0` it computes `res = 1`, which is not below the single row, and takes the fatal
exit, so `simulate` stops on the one-record trace `L 1`. -/
theorem addr_to_setNum_zero_set_bits_fatal :
    addr_to_setNum 1 0 0 = Outcome.stop Abort.fatalExit ∧
    simulate 0 1 0 [lineInfo.mk 'L' 1] = Outcome.stop Abort.fatalExit := by
  refine ⟨by decide, by decide⟩

/-- C9. In every reachable state with `E ≥ 1`, each set's `E` recency values are pairwise
distinct integers in `[1, E]`; every valid flag is 0 or 1; and with `k` the number of
occupied lines, the occupied lines hold exactly the ranks `1..k` and the unoccupied lines
exactly the ranks `k+1..E`. -/
theorem recency_ranks_invariant (s E b : Nat) (st : SimState) (hE : 1 ≤ E)
    (hr : Reachable s E b st) (n : Nat) (hn : n < numRows s) :
    (st.lruMatrix.getD n []).length = E ∧
    (∀ j, j < E → 1 ≤ lruAt st n j ∧ lruAt st n j ≤ (E : Int)) ∧
    (∀ i j, i < E → j < E → i ≠ j → lruAt st n i ≠ lruAt st n j) ∧
    (∀ j, j < E → validAt st n j = 0 ∨ validAt st n j = 1) ∧
    (∀ j, j < E → validAt st n j = 1 → lruAt st n j ≤ (occupiedCount st n : Int)) ∧
    (∀ j, j < E → validAt st n j = 0 → (occupiedCount st n : Int) + 1 ≤ lruAt st n j) ∧
    (∀ r : Int, 1 ≤ r → r ≤ (occupiedCount st n : Int) →
      ∃ j, j < E ∧ validAt st n j = 1 ∧ lruAt st n j = r) ∧
    (∀ r : Int, (occupiedCount st n : Int) + 1 ≤ r → r ≤ (E : Int) →
      ∃ j, j < E ∧ validAt st n j = 0 ∧ lruAt st n j = r) := by
  obtain ⟨ref, hrel⟩ := reachable_stateRel s E b st hE hr
  have h := hrel.rows n (lt_numRows n s hn).2
  have hk : occupiedCount st n = (ref.sets n).length := h.vcount
  have hL := h.Llen
  have hl : ∀ j (hj : j < (st.lruMatrix.getD n []).length),
      lruAt st n j = (st.lruMatrix.getD n [])[j] := fun j hj =>
    List.getD_eq_getElem _ _ hj
  have hv : ∀ j (hj : j < (st.simCache.valid.getD n []).length),
      validAt st n j = (st.simCache.valid.getD n [])[j] := fun j hj =>
    List.getD_eq_getElem _ _ hj
  have hb : ∀ j, j < E → validAt st n j = 0 ∨ validAt st n j = 1 := by
    intro j hj
    rw [hv j (by rw [h.vlen]; exact hj)]
    exact h.vbool _ (List.getElem_mem _)
  have hocc : ∀ j, j < E → (validAt st n j = 1 ↔ lruAt st n j ≤ ((ref.sets n).length : Int)) := by
    intro j hj
    rw [hv j (by rw [h.vlen]; exact hj), hl j (by rw [h.llen]; exact hj)]
    exact h.occ j _ _
  have hrange : ∀ j, j < E → 1 ≤ lruAt st n j ∧ lruAt st n j ≤ (E : Int) := by
    intro j hj
    rw [hl j (by rw [h.llen]; exact hj)]
    exact h.lrange _ (List.getElem_mem _)
  have hsurj : ∀ r : Int, 1 ≤ r → r ≤ (E : Int) → ∃ j, j < E ∧ lruAt st n j = r := by
    intro r h1 h2
    obtain ⟨j, hj, e⟩ := List.mem_iff_getElem.mp
      (rank_present E _ h.llen h.lnodup h.lrange r h1 h2)
    have hjE : j < E := by rw [← h.llen]; exact hj
    exact ⟨j, hjE, by rw [hl j hj]; exact e⟩
  rw [hk]
  refine ⟨h.llen, hrange, ?_, hb, ?_, ?_, ?_, ?_⟩
  · intro i j hi hj hij
    rw [hl i (by rw [h.llen]; exact hi), hl j (by rw [h.llen]; exact hj)]
    exact getElem_ne_of_nodup _ h.lnodup i j _ _ hij
  · intro j hj h1
    exact (hocc j hj).mp h1
  · intro j hj h0
    have : ¬ validAt st n j = 1 := by omega
    rw [hocc j hj] at this
    omega
  · intro r h1 h2
    obtain ⟨j, hj, e⟩ := hsurj r h1 (by omega)
    exact ⟨j, hj, (hocc j hj).mpr (by omega), e⟩
  · intro r h1 h2
    obtain ⟨j, hj, e⟩ := hsurj r (by omega) h2
    refine ⟨j, hj, ?_, e⟩
    rcases hb j hj with h0 | h1'
    · exact h0
    · have := (hocc j hj).mp h1'
      omega

/-- C10. In every reachable state, two different occupied (`valid == 1`) lines of one set
hold different tags. -/
theorem occupied_tags_distinct (s E b : Nat) (st : SimState) (hr : Reachable s E b st)
    (n i j : Nat) (hij : i ≠ j) (hi : validAt st n i = 1) (hj : validAt st n j = 1) :
    cacheAt st n i ≠ cacheAt st n j := by
  rcases Nat.eq_zero_or_pos E with h0 | hpos
  · exfalso
    subst h0
    rw [reachable_E0 s b st hr] at hi
    unfold validAt at hi
    rw [(initState_rows_E0 s n).2.1] at hi
    simp at hi
  · obtain ⟨ref, hrel⟩ := reachable_stateRel s E b st hpos hr
    have hn : n < 2 ^ s := by
      by_contra hge
      have e : st.simCache.valid.getD n [] = [] :=
        List.getD_eq_default _ _ (by rw [hrel.vlen]; omega)
      unfold validAt at hi
      rw [e] at hi
      simp at hi
    have h := hrel.rows n hn
    intro heq
    have hiE : i < E := by rw [← h.vlen]; exact getD_one_lt _ i hi
    have hjE : j < E := by rw [← h.vlen]; exact getD_one_lt _ j hj
    exact hij (rowRel_tags_distinct E _ _ _ _ h i j hiE hjE hi hj heq)

theorem recency_ranks_invariant_witness :
    (1 ≤ 2 ∧ Reachable 1 2 0 (SimState.mk (cache_t.mk [[-1, 0], [-1, -1]] [[0, 1], [0, 0]] 1)
        [[2, 1], [1, 2]] 0 1 0 (some 1)) ∧ 0 < numRows 1) ∧
    lruAt (SimState.mk (cache_t.mk [[-1, 0], [-1, -1]] [[0, 1], [0, 0]] 1)
        [[2, 1], [1, 2]] 0 1 0 (some 1)) 0 0 ≠
      lruAt (SimState.mk (cache_t.mk [[-1, 0], [-1, -1]] [[0, 1], [0, 0]] 1)
        [[2, 1], [1, 2]] 0 1 0 (some 1)) 0 1 :=
  ⟨⟨by decide, ⟨[lineInfo.mk 'L' 0], by decide⟩, by decide⟩,
    (recency_ranks_invariant 1 2 0 _ (by decide) ⟨[lineInfo.mk 'L' 0], by decide⟩ 0
      (by decide)).2.2.1 0 1 (by decide) (by decide) (by decide)⟩

theorem occupied_tags_distinct_witness :
    (Reachable 1 2 0 (SimState.mk (cache_t.mk [[1, 0], [-1, -1]] [[1, 1], [0, 0]] 1)
        [[1, 2], [1, 2]] 0 2 0 (some 0)) ∧ 0 ≠ 1 ∧
      validAt (SimState.mk (cache_t.mk [[1, 0], [-1, -1]] [[1, 1], [0, 0]] 1)
        [[1, 2], [1, 2]] 0 2 0 (some 0)) 0 0 = 1 ∧
      validAt (SimState.mk (cache_t.mk [[1, 0], [-1, -1]] [[1, 1], [0, 0]] 1)
        [[1, 2], [1, 2]] 0 2 0 (some 0)) 0 1 = 1) ∧
    cacheAt (SimState.mk (cache_t.mk [[1, 0], [-1, -1]] [[1, 1], [0, 0]] 1)
        [[1, 2], [1, 2]] 0 2 0 (some 0)) 0 0 ≠
      cacheAt (SimState.mk (cache_t.mk [[1, 0], [-1, -1]] [[1, 1], [0, 0]] 1)
        [[1, 2], [1, 2]] 0 2 0 (some 0)) 0 1 :=
  ⟨⟨⟨[lineInfo.mk 'L' 0, lineInfo.mk 'L' 2], by decide⟩, by decide, by decide, by decide⟩,
    occupied_tags_distinct 1 2 0 _ ⟨[lineInfo.mk 'L' 0, lineInfo.mk 'L' 2], by decide⟩ 0 0 1
      (by decide) (by decide) (by decide)⟩

/-! Counters along a run -/

theorem access_ev_le (E n : Nat) (tag : Int) (st st1 : SimState)
    (h : access E n tag st = Outcome.ok st1)
    (hinv : 0 ≤ st.evCount ∧ st.evCount ≤ st.missCount) :
    0 ≤ st1.evCount ∧ st1.evCount ≤ st1.missCount := by
  rcases access_counters E n tag st st1 h with ⟨_, h2, h3⟩ | ⟨_, h2, h3 | h3⟩ <;> omega

theorem processLine_ev_le (s E b : Nat) (st st1 : SimState) (l : lineInfo)
    (h : processLine s E b st l = Outcome.ok st1)
    (hinv : 0 ≤ st.evCount ∧ st.evCount ≤ st.missCount) :
    0 ≤ st1.evCount ∧ st1.evCount ≤ st1.missCount := by
  unfold processLine at h
  split at h
  · cases h
  · simp only [] at h
    split at h
    · cases h
    · rename_i st2 h2
      have c2 := access_ev_le _ _ _ _ _ h2 hinv
      split at h
      · exact access_ev_le _ _ _ _ _ h c2
      · injection h with h
        subst h
        exact c2

theorem runLines_ev_le (s E b : Nat) (strList : List lineInfo) :
    ∀ st st1 : SimState, runLines s E b st strList = Outcome.ok st1 →
    (0 ≤ st.evCount ∧ st.evCount ≤ st.missCount) →
    0 ≤ st1.evCount ∧ st1.evCount ≤ st1.missCount := by
  induction strList with
  | nil =>
    intro st st1 h hinv
    rw [runLines] at h
    injection h with h
    subst h
    exact hinv
  | cons x rest ih =>
    intro st st1 h hinv
    rw [runLines] at h
    cases hp : processLine s E b st x with
    | stop why => rw [hp] at h; cases h
    | ok st2 =>
      rw [hp] at h
      exact ih st2 st1 h (processLine_ev_le s E b st st2 x hp hinv)

/-! Description of one sub-access through the entries of the three matrices -/

theorem getD_getD_set_set (M : List (List Int)) (n t m j : Nat) (x d : Int)
    (hn : n < M.length) (ht : t < (M.getD n []).length) :
    ((M.set n ((M.getD n []).set t x)).getD m []).getD j d =
      if m = n ∧ j = t then x else (M.getD m []).getD j d := by
  by_cases e : m = n
  · subst e
    rw [getD_set_same _ _ _ _ hn]
    by_cases e2 : j = t
    · subst e2
      rw [getD_set_same _ _ _ _ ht, if_pos ⟨rfl, rfl⟩]
    · rw [getD_set_other _ _ _ _ _ e2, if_neg (fun c => e2 c.2)]
  · rw [getD_set_other _ _ _ _ _ e, if_neg (fun c => e c.1)]

theorem noMatch_findTag (st : SimState) (n : Nat) (tag : Int)
    (hno : ∀ j, ¬ (validAt st n j = 1 ∧ cacheAt st n j = tag)) :
    findTag tag (st.simCache.cache.getD n []) (st.simCache.valid.getD n []) 0 = none := by
  cases hf : findTag tag (st.simCache.cache.getD n []) (st.simCache.valid.getD n []) 0 with
  | none => rfl
  | some i =>
    exfalso
    obtain ⟨_, hiw, hiv, hwi, hvi⟩ := findTag_some tag _ _ 0 i hf
    simp only [Nat.sub_zero] at hiw hiv hwi hvi
    apply hno i
    unfold validAt cacheAt
    rw [List.getD_eq_getElem _ _ hiv, List.getD_eq_getElem _ _ hiw]
    exact ⟨hvi, hwi⟩

theorem match_findTag (E : Nat) (st : SimState) (n i : Nat) (tag : Int) (L : List Int)
    (h : RowRel E (st.simCache.cache.getD n []) (st.simCache.valid.getD n [])
      (st.lruMatrix.getD n []) L)
    (hv : validAt st n i = 1) (hc : cacheAt st n i = tag) :
    findTag tag (st.simCache.cache.getD n []) (st.simCache.valid.getD n []) 0 = some i := by
  have hiv : i < (st.simCache.valid.getD n []).length := getD_one_lt _ i hv
  have hiE : i < E := by rw [← h.vlen]; exact hiv
  have hiw : i < (st.simCache.cache.getD n []).length := by rw [h.wlen]; exact hiE
  cases hf : findTag tag (st.simCache.cache.getD n []) (st.simCache.valid.getD n []) 0 with
  | none =>
    exfalso
    apply findTag_none tag _ _ 0 hf i hiw hiv
    unfold validAt at hv
    unfold cacheAt at hc
    rw [List.getD_eq_getElem _ _ hiv] at hv
    rw [List.getD_eq_getElem _ _ hiw] at hc
    exact ⟨hc, hv⟩
  | some k =>
    obtain ⟨_, hkw, hkv, hwk, hvk⟩ := findTag_some tag _ _ 0 k hf
    simp only [Nat.sub_zero] at hkw hkv hwk hvk
    have hkE : k < E := by rw [← h.vlen]; exact hkv
    have e : k = i := by
      apply rowRel_tags_distinct E _ _ _ _ h k i hkE hiE
      · rw [List.getD_eq_getElem _ _ hkv]; exact hvk
      · exact hv
      · rw [List.getD_eq_getElem _ _ hkw, hwk]; exact hc.symm
    rw [e]

theorem access_other_sets (E n : Nat) (tag : Int) (st st1 : SimState)
    (h : access E n tag st = Outcome.ok st1) (m : Nat) (hm : m ≠ n) :
    st1.simCache.cache.getD m [] = st.simCache.cache.getD m [] ∧
    st1.simCache.valid.getD m [] = st.simCache.valid.getD m [] ∧
    st1.lruMatrix.getD m [] = st.lruMatrix.getD m [] := by
  unfold access at h
  simp only [] at h
  split at h
  · injection h with h
    subst h
    exact ⟨rfl, rfl, getD_set_other _ _ _ _ _ hm⟩
  · split at h
    · split at h
      · cases h
      · split at h
        · injection h with h
          subst h
          exact ⟨getD_set_other _ _ _ _ _ hm, rfl, getD_set_other _ _ _ _ _ hm⟩
        · cases h
    · split at h
      · cases h
      · split at h
        · injection h with h
          subst h
          exact ⟨getD_set_other _ _ _ _ _ hm, getD_set_other _ _ _ _ _ hm,
            getD_set_other _ _ _ _ _ hm⟩
        · cases h

theorem access_hit_spec (s E : Nat) (st : SimState) (r : LruRef) (n i : Nat) (tag : Int)
    (h : StateRel s E st r) (hn : n < 2 ^ s)
    (hv : validAt st n i = 1) (hc : cacheAt st n i = tag) :
    ∃ st1, access E n tag st = Outcome.ok st1 ∧ st1.simCache = st.simCache ∧
      st1.hitCount = st.hitCount + 1 ∧ st1.missCount = st.missCount ∧
      st1.evCount = st.evCount ∧
      ∀ j, j < E → lruAt st1 n j =
        if j = i then 1
        else if lruAt st n j < lruAt st n i then lruAt st n j + 1 else lruAt st n j := by
  have hrow := h.rows n hn
  have hnl : n < st.lruMatrix.length := by rw [h.llen]; exact hn
  have hf := match_findTag E st n i tag _ hrow hv hc
  refine ⟨_, access_hit_eq E n tag st i hf, rfl, rfl, rfl, rfl, ?_⟩
  intro j hj
  have hjl : j < (st.lruMatrix.getD n []).length := by rw [hrow.llen]; exact hj
  unfold lruAt
  simp only [getD_set_same _ _ _ _ hnl]
  rw [List.getD_eq_getElem _ _ (by rw [hitRow_length]; exact hjl),
    hitRow_getElem _ _ i j (by rw [hitRow_length]; exact hjl) hjl,
    List.getD_eq_getElem _ _ hjl]
  by_cases e : i = j
  · rw [if_pos e, if_pos e.symm]
  · rw [if_neg e, if_neg (fun (c : j = i) => e c.symm)]

theorem missRow_lruAt (E : Nat) (st : SimState) (r : LruRef) (s n t : Nat)
    (h : StateRel s E st r) (hn : n < 2 ^ s)
    (ht : t < (st.lruMatrix.getD n []).length) (hlt : (st.lruMatrix.getD n [])[t] = (E : Int))
    (j : Nat) (hj : j < E) :
    (missRow E (st.lruMatrix.getD n [])).getD j 0 =
      if j = t then 1 else lruAt st n j + 1 := by
  have hrow := h.rows n hn
  have hjl : j < (st.lruMatrix.getD n []).length := by rw [hrow.llen]; exact hj
  unfold lruAt
  rw [List.getD_eq_getElem _ _ (by rw [missRow_length]; exact hjl),
    missRow_getElem _ _ j (by rw [missRow_length]; exact hjl) hjl,
    List.getD_eq_getElem _ _ hjl]
  by_cases e : j = t
  · subst e
    rw [if_pos hlt, if_pos rfl]
  · have := getElem_ne_of_nodup _ hrow.lnodup j t hjl ht e
    rw [if_neg (by rw [← hlt]; exact this), if_neg e]

theorem access_miss_spec (s E : Nat) (st : SimState) (r : LruRef) (n : Nat) (tag : Int)
    (hE : 1 ≤ E) (hn : n < 2 ^ s) (h : StateRel s E st r)
    (hno : ∀ j, ¬ (validAt st n j = 1 ∧ cacheAt st n j = tag)) :
    ∃ t st1, t < E ∧ lruAt st n t = (E : Int) ∧
      (∀ j, j < E → lruAt st n j = (E : Int) → j = t) ∧
      access E n tag st = Outcome.ok st1 ∧
      st1.hitCount = st.hitCount ∧ st1.missCount = st.missCount + 1 ∧
      (∀ m j, cacheAt st1 m j = if m = n ∧ j = t then tag else cacheAt st m j) ∧
      (∀ j, j < E → lruAt st1 n j = if j = t then 1 else lruAt st n j + 1) ∧
      (((∀ j, j < E → validAt st n j = 1) ∧ st1.evCount = st.evCount + 1 ∧
          st1.simCache.valid = st.simCache.valid) ∨
        (validAt st n t = 0 ∧ st1.evCount = st.evCount ∧
          ∀ m j, validAt st1 m j = if m = n ∧ j = t then 1 else validAt st m j)) := by
  have hrow := h.rows n hn
  have hnc : n < st.simCache.cache.length := by rw [h.clen]; exact hn
  have hnv : n < st.simCache.valid.length := by rw [h.vlen]; exact hn
  have hnl : n < st.lruMatrix.length := by rw [h.llen]; exact hn
  have hf := noMatch_findTag st n tag hno
  obtain ⟨t, ht, hlt, hm⟩ := rowRel_oldest E _ _ _ _ hE hrow st.tmp
  have htE : t < E := by rw [← hrow.llen]; exact ht
  have htw : t < (st.simCache.cache.getD n []).length := by rw [hrow.wlen]; exact htE
  have htv : t < (st.simCache.valid.getD n []).length := by rw [hrow.vlen]; exact htE
  have hfull := rowRel_full_iff E _ _ _ _ hE hrow
  have hacc := access_miss_eq E n tag st _ t hf hm htE
  have hlat : lruAt st n t = (E : Int) := by
    unfold lruAt; rw [List.getD_eq_getElem _ _ ht]; exact hlt
  have huniq : ∀ j, j < E → lruAt st n j = (E : Int) → j = t := by
    intro j hj hje
    have hjl : j < (st.lruMatrix.getD n []).length := by rw [hrow.llen]; exact hj
    unfold lruAt at hje
    rw [List.getD_eq_getElem _ _ hjl, ← hlt] at hje
    exact (hrow.lnodup.getElem_inj_iff).mp hje
  by_cases hL : (r.sets n).length = E
  · have hfl : is_set_full st.simCache n E = true := hfull.mpr hL
    rw [hfl, if_pos rfl] at hacc
    refine ⟨t, _, htE, hlat, huniq, hacc, rfl, rfl, ?_, ?_, Or.inl ⟨?_, rfl, rfl⟩⟩
    · intro m j
      exact getD_getD_set_set _ n t m j tag (-1) hnc htw
    · intro j hj
      unfold lruAt
      simp only [getD_set_same _ _ _ _ hnl]
      exact missRow_lruAt E st r s n t h hn ht hlt j hj
    · intro j hj
      have hjv : j < (st.simCache.valid.getD n []).length := by rw [hrow.vlen]; exact hj
      have hjl : j < (st.lruMatrix.getD n []).length := by rw [hrow.llen]; exact hj
      have gj := hrow.lrange _ (List.getElem_mem hjl)
      unfold validAt
      rw [List.getD_eq_getElem _ _ hjv]
      exact (hrow.occ j hjv hjl).mpr (by omega)
  · have hfl : is_set_full st.simCache n E = false := by
      rw [← Bool.not_eq_true]; exact fun e => hL (hfull.mp e)
    rw [hfl, if_neg (by simp)] at hacc
    have hvt : validAt st n t = 0 := by
      unfold validAt
      rw [List.getD_eq_getElem _ _ htv]
      rcases hrow.vbool _ (List.getElem_mem htv) with e | e
      · exact e
      · have := (hrow.occ t htv ht).mp e
        have := hrow.Llen
        omega
    refine ⟨t, _, htE, hlat, huniq, hacc, rfl, rfl, ?_, ?_, Or.inr ⟨hvt, rfl, ?_⟩⟩
    · intro m j
      exact getD_getD_set_set _ n t m j tag (-1) hnc htw
    · intro j hj
      unfold lruAt
      simp only [getD_set_same _ _ _ _ hnl]
      exact missRow_lruAt E st r s n t h hn ht hlt j hj
    · intro m j
      exact getD_getD_set_set _ n t m j 1 0 hnv htv

/-! The reference model set by set -/

theorem lruRefAccess_sets_same (E : Nat) (r : LruRef) (a : Nat × Int) :
    (lruRefAccess E r a).sets a.1 = lruSetAccess E (r.sets a.1) a.2 := by
  unfold lruRefAccess lruSetAccess
  split
  · simp only [Function.update_same]
  · split
    · simp only [Function.update_same]
    · simp only [Function.update_same]

theorem lruRefAccess_sets_other (E : Nat) (r : LruRef) (a : Nat × Int) (n : Nat)
    (hn : n ≠ a.1) : (lruRefAccess E r a).sets n = r.sets n := by
  unfold lruRefAccess
  split
  · simp only [Function.update_noteq hn]
  · split
    · simp only [Function.update_noteq hn]
    · simp only [Function.update_noteq hn]

theorem tagsOf_cons (a : Nat × Int) (rest : List (Nat × Int)) (n : Nat) :
    tagsOf (a :: rest) n = if a.1 = n then a.2 :: tagsOf rest n else tagsOf rest n := by
  unfold tagsOf
  by_cases e : a.1 = n
  · simp [List.filter_cons, e]
  · simp [List.filter_cons, e]

theorem lruRefRun_sets (E : Nat) (n : Nat) (accs : List (Nat × Int)) :
    ∀ r : LruRef,
    (lruRefRun E r accs).sets n = (tagsOf accs n).foldl (lruSetAccess E) (r.sets n) := by
  induction accs with
  | nil => intro r; rfl
  | cons a rest ih =>
    intro r
    have e : lruRefRun E r (a :: rest) = lruRefRun E (lruRefAccess E r a) rest := rfl
    rw [e, ih, tagsOf_cons]
    by_cases h : a.1 = n
    · subst h
      rw [if_pos rfl, List.foldl_cons, lruRefAccess_sets_same]
    · rw [if_neg h, lruRefAccess_sets_other E r a n (fun c => h c.symm)]

theorem lruRefAccess_delta_congr (E : Nat) (r1 r2 : LruRef) (a : Nat × Int)
    (hs : r1.sets a.1 = r2.sets a.1) :
    (lruRefAccess E r1 a).hits - r1.hits = (lruRefAccess E r2 a).hits - r2.hits ∧
    (lruRefAccess E r1 a).misses - r1.misses = (lruRefAccess E r2 a).misses - r2.misses ∧
    (lruRefAccess E r1 a).evictions - r1.evictions =
      (lruRefAccess E r2 a).evictions - r2.evictions := by
  unfold lruRefAccess
  rw [hs]
  split
  · simp
  · split
    · simp
    · simp

theorem validAt_one_bounds (s E : Nat) (st : SimState) (r : LruRef) (h : StateRel s E st r)
    (n i : Nat) (hv : validAt st n i = 1) : n < 2 ^ s ∧ i < E := by
  have hn : n < 2 ^ s := by
    by_contra hge
    have e : st.simCache.valid.getD n [] = [] :=
      List.getD_eq_default _ _ (by rw [h.vlen]; omega)
    unfold validAt at hv
    rw [e] at hv
    simp at hv
  refine ⟨hn, ?_⟩
  rw [← (h.rows n hn).vlen]
  exact getD_one_lt _ i hv

theorem validAt_init_E0 (s n i : Nat) : validAt (emptyState s 0) n i = 0 := by
  unfold validAt
  rw [(initState_rows_E0 s n).2.1]
  rfl

theorem modify_single_counts (s E b : Nat) (addr : Int) (hE : 1 ≤ E) (hs : s ≤ 30)
    (hdec : addr_to_setNum addr s b ≠ Outcome.stop Abort.fatalExit) :
    simulate s E b [lineInfo.mk 'M' addr] = Outcome.ok (cacheSimData.mk 1 1 0) := by
  have hall : ∀ l ∈ [lineInfo.mk 'M' addr],
      addr_to_setNum l.address s b ≠ Outcome.stop Abort.fatalExit := by
    intro l hl
    rw [List.mem_singleton] at hl
    rw [hl]
    exact hdec
  obtain ⟨st, h1, h2, _⟩ := simulateState_stateRel s E b _ hE hs hall
  rcases addr_to_setNum_cases addr s b with e | ⟨n, e, _⟩
  · exact absurd e hdec
  · have hsub : subAccesses s b [lineInfo.mk 'M' addr] =
        [(n.toNat, addr_to_tag addr s b), (n.toNat, addr_to_tag addr s b)] := by
      simp [subAccesses, e]
    have hE0 : ¬ (0 = E) := by omega
    have href : lruRefRun E lruRefInit
        [(n.toNat, addr_to_tag addr s b), (n.toNat, addr_to_tag addr s b)] =
        { sets := (lruRefRun E lruRefInit
            [(n.toNat, addr_to_tag addr s b), (n.toNat, addr_to_tag addr s b)]).sets,
          hits := 1, misses := 1, evictions := 0 } := by
      simp [lruRefRun, lruRefAccess, lruRefInit, hE0]
    rw [hsub] at h2
    unfold simulate
    rw [h1]
    have hh := h2.hits
    have hm := h2.misses
    have he := h2.evictions
    rw [href] at hh hm he
    simp only [cacheSimData_new, hh, hm, he]

/-! Statements about counters and the end-to-end scenarios -/

/-- C12. After `simulate` has processed any prefix `pre` of a record sequence, for every
geometry, the counters it maintains satisfy `0 ≤ evCount ≤ missCount`. -/
theorem evictions_le_misses (s E b : Nat) (pre : List lineInfo) (st : SimState)
    (h : simulateState s E b pre = Outcome.ok st) :
    0 ≤ st.evCount ∧ st.evCount ≤ st.missCount := by
  have hle := simulateState_ok_le s E b pre st h
  rw [simulateState_of_le s E b pre hle] at h
  exact runLines_ev_le s E b pre _ _ h ⟨le_refl _, le_refl _⟩

theorem evictions_le_misses_witness :
    simulateState 0 1 0 [lineInfo.mk 'L' 0, lineInfo.mk 'L' 0x10] =
      Outcome.ok (SimState.mk (cache_t.mk [[16]] [[1]] 0) [[1]] 0 2 1 (some 0)) ∧
    (0 : Int) ≤ 1 ∧ (1 : Int) ≤ 2 :=
  ⟨by decide, evictions_le_misses 0 1 0 [lineInfo.mk 'L' 0, lineInfo.mk 'L' 0x10]
    (SimState.mk (cache_t.mk [[16]] [[1]] 0) [[1]] 0 2 1 (some 0)) (by decide)⟩

/-- C13. With `s = 0`, `E = 1`, `b = 1` the single record `M 0xA` does not complete: bit 1
of `0xA` is set, the decoder computes `res = 1` for the only row and takes the fatal exit
instead of returning `hits = 1, misses = 1, evictions = 0`. -/
theorem modify_0xA_fatal_without_set_bits :
    addr_to_setNum 0xA 0 1 = Outcome.stop Abort.fatalExit ∧
    simulate 0 1 1 [lineInfo.mk 'M' 0xA] = Outcome.stop Abort.fatalExit ∧
    simulate 0 1 1 [lineInfo.mk 'M' 0xA] ≠ Outcome.ok (cacheSimData.mk 1 1 0) := by
  refine ⟨by decide, by decide, by decide⟩

/-- C14. With `s = 0`, `E = 1`, `b = 0` the sequence `L 0x0, L 0x0, L 0x10` gives
`hits = 1, misses = 2, evictions = 1`. -/
theorem scenario_A_counts :
    simulate 0 1 0 [lineInfo.mk 'L' 0x0, lineInfo.mk 'L' 0x0, lineInfo.mk 'L' 0x10] =
      Outcome.ok (cacheSimData.mk 1 2 1) := by
  decide

/-- C15. With `s = 1`, `E = 2`, `b = 0` the sequence `L 0x0, L 0x2, L 0x0` gives
`hits = 1, misses = 2, evictions = 0`. -/
theorem scenario_B_counts :
    simulate 1 2 0 [lineInfo.mk 'L' 0x0, lineInfo.mk 'L' 0x2, lineInfo.mk 'L' 0x0] =
      Outcome.ok (cacheSimData.mk 1 2 0) := by
  decide

/-- C19, as stated, fails: with `s = 1`, `b = 0` the decoder does not map `0x2` to set
index 1. -/
theorem decode_0x2_not_set_1 : ¬ (addr_to_setNum 0x2 1 0 = Outcome.ok 1) := by
  decide

/-- C19, amended. With `s = 1`, `b = 0` the decoder maps `0x0` to set index 0 with tag 0
and `0x2` to set index 0 with tag 1: the set bit is bit 0, which is clear in `0x2`. -/
theorem decode_scenario_B :
    addr_to_setNum 0x0 1 0 = Outcome.ok 0 ∧ addr_to_tag 0x0 1 0 = 0 ∧
    addr_to_setNum 0x2 1 0 = Outcome.ok 0 ∧ addr_to_tag 0x2 1 0 = 1 := by
  refine ⟨by decide, by decide, by decide, by decide⟩

/-! Statements about a single sub-access -/

/-- C11. For `E = 1`, in a reachable state, a sub-access to a set whose single line is
occupied with a tag different from the accessed tag completes, increments `missCount` and
`evCount` by one and leaves `hitCount`; afterwards the line is occupied with the accessed
tag and no occupied line of the set holds the old tag. -/
theorem direct_mapped_conflict_evicts (s b : Nat) (st : SimState) (n : Nat) (tag : Int)
    (hr : Reachable s 1 b st) (hocc : validAt st n 0 = 1) (hdiff : cacheAt st n 0 ≠ tag) :
    ∃ st1, access 1 n tag st = Outcome.ok st1 ∧
      st1.missCount = st.missCount + 1 ∧ st1.evCount = st.evCount + 1 ∧
      st1.hitCount = st.hitCount ∧
      validAt st1 n 0 = 1 ∧ cacheAt st1 n 0 = tag ∧
      ∀ j, ¬ (validAt st1 n j = 1 ∧ cacheAt st1 n j = cacheAt st n 0) := by
  obtain ⟨ref, hrel⟩ := reachable_stateRel s 1 b st (le_refl 1) hr
  have hn := (validAt_one_bounds s 1 st ref hrel n 0 hocc).1
  have hno : ∀ j, ¬ (validAt st n j = 1 ∧ cacheAt st n j = tag) := by
    rintro j ⟨h1, h2⟩
    have hj := (validAt_one_bounds s 1 st ref hrel n j h1).2
    have e : j = 0 := by omega
    subst e
    exact hdiff h2
  obtain ⟨t, st1, ht, _, _, hacc, hh, hm, hcache, _, hcase⟩ :=
    access_miss_spec s 1 st ref n tag (le_refl 1) hn hrel hno
  have e : t = 0 := by omega
  subst e
  rcases hcase with ⟨_, hev, hvalid⟩ | ⟨hv0, _, _⟩
  · have hvs : ∀ j, validAt st1 n j = validAt st n j := by
      intro j; unfold validAt; rw [hvalid]
    refine ⟨st1, hacc, hm, hev, hh, ?_, ?_, ?_⟩
    · rw [hvs]; exact hocc
    · rw [hcache, if_pos ⟨rfl, rfl⟩]
    · rintro j ⟨h1, h2⟩
      rw [hvs] at h1
      have hj := (validAt_one_bounds s 1 st ref hrel n j h1).2
      have e : j = 0 := by omega
      subst e
      rw [hcache, if_pos ⟨rfl, rfl⟩] at h2
      exact hdiff h2.symm
  · rw [hocc] at hv0
    omega

theorem direct_mapped_conflict_evicts_witness :
    (Reachable 1 1 0 exampleDirect ∧ validAt exampleDirect 0 0 = 1 ∧
      cacheAt exampleDirect 0 0 ≠ 5) ∧
    ∃ st1, access 1 0 5 exampleDirect = Outcome.ok st1 ∧
      st1.missCount = exampleDirect.missCount + 1 ∧
      st1.evCount = exampleDirect.evCount + 1 ∧
      st1.hitCount = exampleDirect.hitCount ∧
      validAt st1 0 0 = 1 ∧ cacheAt st1 0 0 = 5 ∧
      ∀ j, ¬ (validAt st1 0 j = 1 ∧ cacheAt st1 0 j = cacheAt exampleDirect 0 0) :=
  ⟨⟨⟨[lineInfo.mk 'L' 0], by decide⟩, by decide, by decide⟩,
    direct_mapped_conflict_evicts 1 0 exampleDirect 0 5 ⟨[lineInfo.mk 'L' 0], by decide⟩
      (by decide) (by decide)⟩

/-- C16. In a reachable state with `E ≥ 1`, a sub-access whose tag matches no occupied line
of its set completes, and it counts an eviction only if all `E` lines of the set are
occupied. In that case the line overwritten is the unique line of recency `E`: its tag
becomes the accessed tag and its recency 1, the recency of every other line of the set
grows by exactly 1, every other tag and every valid flag is unchanged, `missCount` and
`evCount` grow by one and `hitCount` is unchanged. -/
theorem miss_in_full_set_evicts_oldest (s E b : Nat) (st : SimState) (n : Nat) (tag : Int)
    (hE : 1 ≤ E) (hr : Reachable s E b st) (hn : n < numRows s)
    (hno : ∀ j, j < E → ¬ (validAt st n j = 1 ∧ cacheAt st n j = tag)) :
    ∃ st1, access E n tag st = Outcome.ok st1 ∧
      (st1.evCount ≠ st.evCount → ∀ j, j < E → validAt st n j = 1) ∧
      ((∀ j, j < E → validAt st n j = 1) →
        ∃ t, t < E ∧ lruAt st n t = (E : Int) ∧
          (∀ j, j < E → lruAt st n j = (E : Int) → j = t) ∧
          cacheAt st1 n t = tag ∧ lruAt st1 n t = 1 ∧
          (∀ j, j < E → j ≠ t → lruAt st1 n j = lruAt st n j + 1) ∧
          (∀ m j, (m ≠ n ∨ j ≠ t) → cacheAt st1 m j = cacheAt st m j) ∧
          (∀ m j, validAt st1 m j = validAt st m j) ∧
          st1.missCount = st.missCount + 1 ∧ st1.evCount = st.evCount + 1 ∧
          st1.hitCount = st.hitCount) := by
  obtain ⟨ref, hrel⟩ := reachable_stateRel s E b st hE hr
  have hno2 : ∀ j, ¬ (validAt st n j = 1 ∧ cacheAt st n j = tag) := by
    rintro j ⟨h1, h2⟩
    exact hno j (validAt_one_bounds s E st ref hrel n j h1).2 ⟨h1, h2⟩
  obtain ⟨t, st1, ht, hlt, huniq, hacc, hh, hm, hcache, hlru, hcase⟩ :=
    access_miss_spec s E st ref n tag hE (lt_numRows n s hn).2 hrel hno2
  refine ⟨st1, hacc, ?_, ?_⟩
  · intro hne
    rcases hcase with ⟨hall, _, _⟩ | ⟨_, hev, _⟩
    · exact hall
    · exact absurd hev hne
  · intro hall
    rcases hcase with ⟨_, hev, hvalid⟩ | ⟨hv0, _, _⟩
    · refine ⟨t, ht, hlt, huniq, ?_, ?_, ?_, ?_, ?_, hm, hev, hh⟩
      · rw [hcache, if_pos ⟨rfl, rfl⟩]
      · rw [hlru t ht, if_pos rfl]
      · intro j hj hjt
        rw [hlru j hj, if_neg hjt]
      · intro m j hmj
        rw [hcache, if_neg (fun c => by rcases hmj with h1 | h1 <;> [exact h1 c.1; exact h1 c.2])]
      · intro m j
        unfold validAt
        rw [hvalid]
    · rw [hall t ht] at hv0
      omega

theorem miss_in_full_set_evicts_oldest_witness :
    (1 ≤ 2 ∧ Reachable 1 2 0 exampleFull ∧ 0 < numRows 1 ∧
      ∀ j, j < 2 → ¬ (validAt exampleFull 0 j = 1 ∧ cacheAt exampleFull 0 j = 7)) ∧
    ∃ st1, access 2 0 7 exampleFull = Outcome.ok st1 ∧
      (st1.evCount ≠ exampleFull.evCount → ∀ j, j < 2 → validAt exampleFull 0 j = 1) ∧
      ((∀ j, j < 2 → validAt exampleFull 0 j = 1) →
        ∃ t, t < 2 ∧ lruAt exampleFull 0 t = ((2 : Nat) : Int) ∧
          (∀ j, j < 2 → lruAt exampleFull 0 j = ((2 : Nat) : Int) → j = t) ∧
          cacheAt st1 0 t = 7 ∧ lruAt st1 0 t = 1 ∧
          (∀ j, j < 2 → j ≠ t → lruAt st1 0 j = lruAt exampleFull 0 j + 1) ∧
          (∀ m j, (m ≠ 0 ∨ j ≠ t) → cacheAt st1 m j = cacheAt exampleFull m j) ∧
          (∀ m j, validAt st1 m j = validAt exampleFull m j) ∧
          st1.missCount = exampleFull.missCount + 1 ∧
          st1.evCount = exampleFull.evCount + 1 ∧
          st1.hitCount = exampleFull.hitCount) :=
  ⟨⟨by decide, ⟨[lineInfo.mk 'L' 0, lineInfo.mk 'L' 2], by decide⟩, by decide, by decide⟩,
    miss_in_full_set_evicts_oldest 1 2 0 exampleFull 0 7 (by decide)
      ⟨[lineInfo.mk 'L' 0, lineInfo.mk 'L' 2], by decide⟩ (by decide) (by decide)⟩

/-- C17. In a reachable state, a sub-access whose tag matches the occupied line `i` of
recency `r` completes and sets that line's recency to 1, raises by exactly 1 the recency of
every other line of the set whose recency was below `r`, leaves every line whose recency was
above `r`, changes no tag and no valid flag, and increments `hitCount` by one while
`missCount` and `evCount` are unchanged. -/
theorem hit_updates_recency (s E b : Nat) (st : SimState) (n i : Nat) (tag : Int)
    (hr : Reachable s E b st) (hv : validAt st n i = 1) (hc : cacheAt st n i = tag) :
    ∃ st1, access E n tag st = Outcome.ok st1 ∧ lruAt st1 n i = 1 ∧
      (∀ j, j < E → j ≠ i → lruAt st n j < lruAt st n i →
        lruAt st1 n j = lruAt st n j + 1) ∧
      (∀ j, j < E → j ≠ i → lruAt st n i < lruAt st n j → lruAt st1 n j = lruAt st n j) ∧
      st1.simCache = st.simCache ∧
      st1.hitCount = st.hitCount + 1 ∧ st1.missCount = st.missCount ∧
      st1.evCount = st.evCount := by
  rcases Nat.eq_zero_or_pos E with h0 | hpos
  · exfalso
    subst h0
    rw [reachable_E0 s b st hr, validAt_init_E0] at hv
    omega
  · obtain ⟨ref, hrel⟩ := reachable_stateRel s E b st hpos hr
    obtain ⟨hn, hiE⟩ := validAt_one_bounds s E st ref hrel n i hv
    obtain ⟨st1, hacc, hsc, hh, hm, hev, hlru⟩ :=
      access_hit_spec s E st ref n i tag hrel hn hv hc
    refine ⟨st1, hacc, ?_, ?_, ?_, hsc, hh, hm, hev⟩
    · rw [hlru i hiE, if_pos rfl]
    · intro j hj hji hlt
      rw [hlru j hj, if_neg hji, if_pos hlt]
    · intro j hj hji hlt
      rw [hlru j hj, if_neg hji, if_neg (by omega)]

theorem hit_updates_recency_witness :
    (Reachable 1 2 0 exampleFull ∧ validAt exampleFull 0 1 = 1 ∧
      cacheAt exampleFull 0 1 = 0) ∧
    ∃ st1, access 2 0 0 exampleFull = Outcome.ok st1 ∧ lruAt st1 0 1 = 1 ∧
      (∀ j, j < 2 → j ≠ 1 → lruAt exampleFull 0 j < lruAt exampleFull 0 1 →
        lruAt st1 0 j = lruAt exampleFull 0 j + 1) ∧
      (∀ j, j < 2 → j ≠ 1 → lruAt exampleFull 0 1 < lruAt exampleFull 0 j →
        lruAt st1 0 j = lruAt exampleFull 0 j) ∧
      st1.simCache = exampleFull.simCache ∧
      st1.hitCount = exampleFull.hitCount + 1 ∧ st1.missCount = exampleFull.missCount ∧
      st1.evCount = exampleFull.evCount :=
  ⟨⟨⟨[lineInfo.mk 'L' 0, lineInfo.mk 'L' 2], by decide⟩, by decide, by decide⟩,
    hit_updates_recency 1 2 0 exampleFull 0 1 0
      ⟨[lineInfo.mk 'L' 0, lineInfo.mk 'L' 2], by decide⟩ (by decide) (by decide)⟩

/-- C18. In a reachable state with `E ≥ 1`, a sub-access that misses in a set that is not
full completes and stores the tag in a slot that was unoccupied before, marks that slot
occupied with recency 1, keeps every previously occupied line occupied with its tag, raises
the recency of each previously occupied line by exactly 1, and increments `missCount` by one
while `hitCount` and `evCount` are unchanged. -/
theorem miss_in_free_set_fills_slot (s E b : Nat) (st : SimState) (n : Nat) (tag : Int)
    (hE : 1 ≤ E) (hr : Reachable s E b st) (hn : n < numRows s)
    (hno : ∀ j, j < E → ¬ (validAt st n j = 1 ∧ cacheAt st n j = tag))
    (hfree : ∃ j, j < E ∧ validAt st n j ≠ 1) :
    ∃ st1 t, access E n tag st = Outcome.ok st1 ∧ t < E ∧ validAt st n t = 0 ∧
      cacheAt st1 n t = tag ∧ validAt st1 n t = 1 ∧ lruAt st1 n t = 1 ∧
      (∀ j, j < E → validAt st n j = 1 →
        validAt st1 n j = 1 ∧ cacheAt st1 n j = cacheAt st n j ∧
        lruAt st1 n j = lruAt st n j + 1) ∧
      st1.missCount = st.missCount + 1 ∧ st1.hitCount = st.hitCount ∧
      st1.evCount = st.evCount := by
  obtain ⟨ref, hrel⟩ := reachable_stateRel s E b st hE hr
  have hno2 : ∀ j, ¬ (validAt st n j = 1 ∧ cacheAt st n j = tag) := by
    rintro j ⟨h1, h2⟩
    exact hno j (validAt_one_bounds s E st ref hrel n j h1).2 ⟨h1, h2⟩
  obtain ⟨t, st1, ht, _, _, hacc, hh, hm, hcache, hlru, hcase⟩ :=
    access_miss_spec s E st ref n tag hE (lt_numRows n s hn).2 hrel hno2
  rcases hcase with ⟨hall, _, _⟩ | ⟨hv0, hev, hvalid⟩
  · obtain ⟨j, hj, hjv⟩ := hfree
    exact absurd (hall j hj) hjv
  · refine ⟨st1, t, hacc, ht, hv0, ?_, ?_, ?_, ?_, hm, hh, hev⟩
    · rw [hcache, if_pos ⟨rfl, rfl⟩]
    · rw [hvalid, if_pos ⟨rfl, rfl⟩]
    · rw [hlru t ht, if_pos rfl]
    · intro j hj hjv
      have hjt : j ≠ t := by
        intro e
        rw [e, hv0] at hjv
        omega
      refine ⟨?_, ?_, ?_⟩
      · rw [hvalid, if_neg (fun c => hjt c.2)]; exact hjv
      · rw [hcache, if_neg (fun c => hjt c.2)]
      · rw [hlru j hj, if_neg hjt]

theorem miss_in_free_set_fills_slot_witness :
    (1 ≤ 2 ∧ Reachable 1 2 0 exampleHalf ∧ 0 < numRows 1 ∧
      (∀ j, j < 2 → ¬ (validAt exampleHalf 0 j = 1 ∧ cacheAt exampleHalf 0 j = 7)) ∧
      ∃ j, j < 2 ∧ validAt exampleHalf 0 j ≠ 1) ∧
    ∃ st1 t, access 2 0 7 exampleHalf = Outcome.ok st1 ∧ t < 2 ∧
      validAt exampleHalf 0 t = 0 ∧
      cacheAt st1 0 t = 7 ∧ validAt st1 0 t = 1 ∧ lruAt st1 0 t = 1 ∧
      (∀ j, j < 2 → validAt exampleHalf 0 j = 1 →
        validAt st1 0 j = 1 ∧ cacheAt st1 0 j = cacheAt exampleHalf 0 j ∧
        lruAt st1 0 j = lruAt exampleHalf 0 j + 1) ∧
      st1.missCount = exampleHalf.missCount + 1 ∧ st1.hitCount = exampleHalf.hitCount ∧
      st1.evCount = exampleHalf.evCount :=
  ⟨⟨by decide, ⟨[lineInfo.mk 'L' 0], by decide⟩, by decide, by decide,
      ⟨0, by decide, by decide⟩⟩,
    miss_in_free_set_fills_slot 1 2 0 exampleHalf 0 7 (by decide)
      ⟨[lineInfo.mk 'L' 0], by decide⟩ (by decide) (by decide) ⟨0, by decide, by decide⟩⟩

/-- C20. Set isolation, for `E ≥ 1`: after two record sequences whose sub-accesses to set
`n` carry the same tags in the same order (whatever they do in other sets), a sub-access to
set `n` completes in both states with the same hit, miss and eviction increments, and in each
state it leaves the tags, valid flags and recency values of every other set unchanged. -/
theorem set_isolation (s E b : Nat) (l1 l2 : List lineInfo) (st1 st2 : SimState) (n : Nat)
    (tag : Int) (hE : 1 ≤ E) (hn : n < numRows s)
    (h1 : simulateState s E b l1 = Outcome.ok st1)
    (h2 : simulateState s E b l2 = Outcome.ok st2)
    (hsame : tagsOf (subAccesses s b l1) n = tagsOf (subAccesses s b l2) n) :
    ∃ st1' st2', access E n tag st1 = Outcome.ok st1' ∧
      access E n tag st2 = Outcome.ok st2' ∧
      st1'.hitCount - st1.hitCount = st2'.hitCount - st2.hitCount ∧
      st1'.missCount - st1.missCount = st2'.missCount - st2.missCount ∧
      st1'.evCount - st1.evCount = st2'.evCount - st2.evCount ∧
      (∀ m, m ≠ n →
        st1'.simCache.cache.getD m [] = st1.simCache.cache.getD m [] ∧
        st1'.simCache.valid.getD m [] = st1.simCache.valid.getD m [] ∧
        st1'.lruMatrix.getD m [] = st1.lruMatrix.getD m []) ∧
      (∀ m, m ≠ n →
        st2'.simCache.cache.getD m [] = st2.simCache.cache.getD m [] ∧
        st2'.simCache.valid.getD m [] = st2.simCache.valid.getD m [] ∧
        st2'.lruMatrix.getD m [] = st2.lruMatrix.getD m []) := by
  have hs := (lt_numRows n s hn).1
  have hn2 := (lt_numRows n s hn).2
  have hd1 := simulateState_ok_decodes s E b l1 st1 h1
  have hd2 := simulateState_ok_decodes s E b l2 st2 h2
  obtain ⟨t1, e1, r1, _⟩ := simulateState_stateRel s E b l1 hE hs hd1
  obtain ⟨t2, e2, r2, _⟩ := simulateState_stateRel s E b l2 hE hs hd2
  rw [h1] at e1
  rw [h2] at e2
  injection e1 with e1
  injection e2 with e2
  subst e1
  subst e2
  have hsets : (lruRefRun E lruRefInit (subAccesses s b l1)).sets n =
      (lruRefRun E lruRefInit (subAccesses s b l2)).sets n := by
    rw [lruRefRun_sets, lruRefRun_sets, hsame]
  obtain ⟨a1, ha1, hr1, _⟩ := stateRel_access s E st1 _ n tag hE hn2 r1
  obtain ⟨a2, ha2, hr2, _⟩ := stateRel_access s E st2 _ n tag hE hn2 r2
  obtain ⟨d1, d2, d3⟩ := lruRefAccess_delta_congr E _ _ (n, tag) hsets
  refine ⟨a1, a2, ha1, ha2, ?_, ?_, ?_, access_other_sets E n tag st1 a1 ha1,
    access_other_sets E n tag st2 a2 ha2⟩
  · rw [hr1.hits, hr2.hits, r1.hits, r2.hits]; exact d1
  · rw [hr1.misses, hr2.misses, r1.misses, r2.misses]; exact d2
  · rw [hr1.evictions, hr2.evictions, r1.evictions, r2.evictions]; exact d3

theorem set_isolation_witness :
    (1 ≤ 2 ∧ 0 < numRows 1 ∧
      simulateState 1 2 0 [lineInfo.mk 'L' 0, lineInfo.mk 'L' 1] = Outcome.ok exampleBoth ∧
      simulateState 1 2 0 [lineInfo.mk 'L' 0] = Outcome.ok exampleHalf ∧
      tagsOf (subAccesses 1 0 [lineInfo.mk 'L' 0, lineInfo.mk 'L' 1]) 0 =
        tagsOf (subAccesses 1 0 [lineInfo.mk 'L' 0]) 0) ∧
    ∃ st1' st2', access 2 0 0 exampleBoth = Outcome.ok st1' ∧
      access 2 0 0 exampleHalf = Outcome.ok st2' ∧
      st1'.hitCount - exampleBoth.hitCount = st2'.hitCount - exampleHalf.hitCount ∧
      st1'.missCount - exampleBoth.missCount = st2'.missCount - exampleHalf.missCount ∧
      st1'.evCount - exampleBoth.evCount = st2'.evCount - exampleHalf.evCount ∧
      (∀ m, m ≠ 0 →
        st1'.simCache.cache.getD m [] = exampleBoth.simCache.cache.getD m [] ∧
        st1'.simCache.valid.getD m [] = exampleBoth.simCache.valid.getD m [] ∧
        st1'.lruMatrix.getD m [] = exampleBoth.lruMatrix.getD m []) ∧
      (∀ m, m ≠ 0 →
        st2'.simCache.cache.getD m [] = exampleHalf.simCache.cache.getD m [] ∧
        st2'.simCache.valid.getD m [] = exampleHalf.simCache.valid.getD m [] ∧
        st2'.lruMatrix.getD m [] = exampleHalf.lruMatrix.getD m []) :=
  ⟨⟨by decide, by decide, by decide, by decide, by decide⟩,
    set_isolation 1 2 0 [lineInfo.mk 'L' 0, lineInfo.mk 'L' 1] [lineInfo.mk 'L' 0]
      exampleBoth exampleHalf 0 0 (by decide) (by decide) (by decide) (by decide)
      (by decide)⟩

end CacheSim
